import Mathlib

/-!
# Verification of the i18n locale analyzer

A shallow embedding of the locale-usage reconciliation engine
(`analizer.ts`) and its runtime lookup collaborator (`useTranslate`),
together with theorems settling the specification claims.

JSON documents are modelled by `JVal`; JavaScript objects are field lists
in insertion order (JS objects preserve string-key insertion order, and
`JSON.parse` yields objects with pairwise-distinct keys).
-/

/-- A JSON value as the analyzer sees it: strings, `null`, arrays (opaque
leaves, never recursed into) and plain objects given as field lists in
insertion order. Number and boolean leaves behave exactly like the other
non-object leaves in every function modelled here and are omitted. -/
inductive JVal where
  | str : String → JVal
  | nullV : JVal
  | arr : List JVal → JVal
  | obj : List (String × JVal) → JVal
deriving Repr

abbrev Fields := List (String × JVal)

/-- `Object.prototype.hasOwnProperty.call(obj, k)`. -/
def hasField : Fields → String → Bool
  | [], _ => false
  | p :: rest, k => p.1 == k || hasField rest k

/-- Property read `obj[k]` (for a present key; a JS object holds each key
at most once). -/
def getField : Fields → String → Option JVal
  | [], _ => none
  | p :: rest, k => if p.1 == k then some p.2 else getField rest k

/-- Property write `obj[k] = v`: an existing key keeps its slot and
position, a new key is appended (JS insertion order). -/
def setField : Fields → String → JVal → Fields
  | [], k, v => [(k, v)]
  | p :: rest, k, v => if p.1 == k then (k, v) :: rest else p :: setField rest k v

/-- `delete obj[k]` (a JS object holds each key at most once). -/
def eraseField : Fields → String → Fields
  | [], _ => []
  | p :: rest, k => if p.1 == k then rest else p :: eraseField rest k

mutual
/-- `getKeys(obj, prefix)` from `analizer.ts`: recursively collects the
dot-joined paths of all leaves of a nested object; a non-object root (or
`null`, or an array) contributes no keys. The JS version accumulates into
a `Set`; with the distinct field names `JSON.parse` guarantees the
insertion order of that set is the traversal order retained here. -/
def getKeys : JVal → String → List String
  | .obj fields, pre => getKeysF fields pre
  | _, _ => []
termination_by structural v => v

/-- `getKeys` iterated over the fields of an object (`for key in obj`). -/
def getKeysF : Fields → String → List String
  | [], _ => []
  | (k, v) :: rest, pre =>
    let fullKey := if pre == "" then k else pre ++ "." ++ k
    (match v with
     | .obj _ => getKeys v fullKey
     | _ => [fullKey]) ++ getKeysF rest pre
termination_by structural fs => fs
end

example : getKeys (.obj [("a", .obj [("b", .str "x")]), ("c", .str "y")]) ""
    = ["a.b", "c"] := by rfl

example : getKeys (.arr [.str "x"]) "" = [] := by rfl

/-- JavaScript `String.prototype.split` with the single-character separator
`"."`, on character lists: `"".split(".") = [""]`, `"a.b".split(".") =
["a","b"]`, `"a..b".split(".") = ["a","","b"]`. -/
def splitDotChars : List Char → List (List Char)
  | [] => [[]]
  | c :: cs =>
    if c = '.' then [] :: splitDotChars cs
    else
      match splitDotChars cs with
      | g :: gs => (c :: g) :: gs
      | [] => [[c]]

/-- `key.split(".")` from the analyzer and the runtime lookup. -/
def jsSplitDot (s : String) : List String :=
  (splitDotChars s.data).map (fun cs => ⟨cs⟩)

example : jsSplitDot "a.b" = ["a", "b"] := by rfl
example : jsSplitDot "abc" = ["abc"] := by rfl
example : jsSplitDot "" = [""] := by rfl

/-- `setNestedKey(obj, keyPath, value)` from `analizer.ts`, as a function
returning the updated object: walks the path, replacing an intermediate
entry that is missing, not an object, or an array by a fresh empty object,
and stores the string value at the final segment. (The JS original mutates
`obj` in place; the shallow embedding returns the new field list.) -/
def setNestedKey : Fields → List String → String → Fields
  | fields, [], _ => fields
  | fields, [k], v => setField fields k (.str v)
  | fields, k :: k2 :: rest, v =>
    let child : Fields :=
      match getField fields k with
      | some (.obj f2) => f2
      | _ => []
    setField fields k (.obj (setNestedKey child (k2 :: rest) v))

example : setNestedKey [] ["a", "b"] "x" = [("a", .obj [("b", .str "x")])] := by
  rfl

example :
    setNestedKey [("a", .str "x")] ["a", "b"] "y"
      = [("a", .obj [("b", .str "y")])] := by rfl

/-- `Object.keys(v).length === 0` for an object. -/
def isEmptyObj : JVal → Bool
  | .obj [] => true
  | _ => false

/-- `removeKey(obj, keyPath)` from `analizer.ts`, as a function returning
the updated value together with the `removed` flag: deletes the entry at
the path if present; after a successful recursive deletion, a parent entry
whose object became empty is itself deleted (cascading prune). A non-object
(or array) node, or an absent path, removes nothing. (The JS original
mutates in place; `typeof null === "object"` lets a `null` child reach the
recursive call, which then removes nothing, exactly as here.) -/
def removeKey : JVal → List String → JVal × Bool
  | v, [] => (v, false)
  | .obj fields, [k] =>
    if hasField fields k then (.obj (eraseField fields k), true)
    else (.obj fields, false)
  | .obj fields, k :: k2 :: rest =>
    match getField fields k with
    | some child =>
      match child with
      | .obj _ | .nullV =>
        let r := removeKey child (k2 :: rest)
        if r.2 && isEmptyObj r.1 then (.obj (eraseField fields k), true)
        else (.obj (setField fields k r.1), r.2)
      | _ => (.obj fields, false)
    | none => (.obj fields, false)
  | v, _ :: _ => (v, false)

example :
    removeKey (.obj [("a", .obj [("b", .obj [("c", .str "x")])])]) ["a", "b", "c"]
      = (.obj [], true) := by rfl

/-- `loadLocale(locale, localesDir)` from `analizer.ts`. `content` is the
result of `fs.readFile` on `<dir>/<locale>.json` (`none` = ENOENT) and
`parseJSON` models `JSON.parse` (`none` = parse exception). The first
component is the value the function returns (`LocaleData | null` as an
`Option`); the second records whether the `catch` branch printed an error
diagnostic to the console. A missing file returns `null` silently; a file
that fails to parse prints an error and also returns `null`. -/
def loadLocale (content : Option String) (parseJSON : String → Option JVal) :
    Option JVal × Bool :=
  match content with
  | none => (none, false)
  | some c =>
    match parseJSON c with
    | some d => (some d, false)
    | none => (none, true)

/-- The loop body of `t` from `useTranslate.ts`, walking the remaining
path segments from the current value: a segment is followed when the
current value is a truthy object owning it, otherwise the original key is
returned; after the last segment the value is returned if it is a string,
else the original key. (On the `Dictionary` type — nested string maps —
arrays never occur; an array here falls to the fallback branch, while JS
would additionally follow numeric indices, a case outside the
`Dictionary` domain this embedding covers.) -/
def tGo (key : String) : JVal → List String → String
  | v, [] =>
    match v with
    | .str s => s
    | _ => key
  | .obj fields, k :: rest =>
    (match getField fields k with
     | some v2 => tGo key v2 rest
     | none => key)
  | _, _ :: _ => key

/-- `t(key)` from `useTranslate.ts`: split the key at dots and walk the
active dictionary, falling back to the key itself. -/
def tRun (dictionary : Fields) (key : String) : String :=
  tGo key (.obj dictionary) (jsSplitDot key)

example : tRun [("a", .obj [("b", .str "hi")])] "a.b" = "hi" := by rfl
example : tRun [("a", .obj [("b", .str "hi")])] "a.c" = "a.c" := by rfl
example : tRun [("a", .obj [("b", .str "hi")])] "a" = "a" := by rfl

/-- A key status row of the analysis report (`KeyStatus` in
`analizer.ts`). -/
structure KeyStatus where
  key : String
  inCode : Bool
  inEN : Bool
  inES : Bool
deriving Repr, DecidableEq

/-- Insertion into a JS `Set` materialized as a list: first-occurrence
order, deduplicated. -/
def addUnique (acc : List String) (k : String) : List String :=
  if k ∈ acc then acc else acc ++ [k]

/-- `new Set([...l])` materialized as a list in iteration order. -/
def dedupKeys (l : List String) : List String := l.foldl addUnique []

/-- The key-status construction of `analyzeLocales` (`analizer.ts` lines
308–340): the default locale is loaded (the run is fatal otherwise, so
`enData` is given); the secondary locale is `some` data exactly when
`loadLocale("es", dir)` returned data. `allUniqueKeys` is the union of
all locale key sets and the used keys; `inES` is
`otherLocaleKeys["es"]?.has(key) || false`, hence `false` for every key
when the secondary locale was not loaded. -/
def mkKeyStatuses (enData : Fields) (esData : Option Fields)
    (usedKeys : List String) : List KeyStatus :=
  let defaultLocaleKeys := getKeysF enData ""
  let esKeys := match esData with | some d => getKeysF d "" | none => []
  let allLocaleKeys := dedupKeys (defaultLocaleKeys ++ esKeys)
  let allUniqueKeys := dedupKeys (allLocaleKeys ++ usedKeys)
  allUniqueKeys.map fun k =>
    { key := k
      inCode := usedKeys.contains k
      inEN := defaultLocaleKeys.contains k
      inES := match esData with
              | some _ => esKeys.contains k
              | none => false }

/-- Collation element of an ASCII character under the default
`String.prototype.localeCompare` collation (ECMA-402 with the ICU root
order), restricted to the ASCII range the analyzer's keys live in: the
primary weight compares letters case-insensitively and the second weight
puts a lowercase letter before its uppercase form. -/
def collKey (c : Char) : Nat × Nat :=
  if c.isUpper then (c.toLower.toNat, 1) else (c.toNat, 0)

/-- Collation elements of a string. -/
def collSeq (s : String) : List (Nat × Nat) := s.data.map collKey

/-- Lexicographic comparison of collation sequences:
`collLe (collSeq a) (collSeq b)` models `a.localeCompare(b) <= 0`. -/
def collLe : List (Nat × Nat) → List (Nat × Nat) → Bool
  | [], _ => true
  | _ :: _, [] => false
  | a :: as, b :: bs =>
    if a.1 < b.1 then true
    else if b.1 < a.1 then false
    else if a.2 < b.2 then true
    else if b.2 < a.2 then false
    else collLe as bs

/-- `a.localeCompare(b) <= 0` under the modelled collation. -/
def localeLe (a b : String) : Bool := collLe (collSeq a) (collSeq b)

example : localeLe "a" "B" = true := by rfl
example : localeLe "B" "a" = false := by rfl
example : localeLe "a" "A" = true := by rfl

/-- One step of a stable insertion sort by
`(a, b) => a.key.localeCompare(b.key)`. -/
def insertStatus (s : KeyStatus) : List KeyStatus → List KeyStatus
  | [] => [s]
  | t :: ts =>
    if localeLe s.key t.key then s :: t :: ts else t :: insertStatus s ts

/-- `keyStatuses.sort((a, b) => a.key.localeCompare(b.key))` from
`analyzeLocales`. `Array.prototype.sort` is a stable sort ordered by the
comparator; a stable insertion sort produces the same list. -/
def sortKeyStatuses (l : List KeyStatus) : List KeyStatus :=
  l.foldr insertStatus []

/-- The `keyStatuses` field of the `analyzeLocales` result: constructed,
then sorted for display. -/
def analyzeKeyStatuses (enData : Fields) (esData : Option Fields)
    (usedKeys : List String) : List KeyStatus :=
  sortKeyStatuses (mkKeyStatuses enData esData usedKeys)

/-- The locales directory as a mutable store: each locale name is mapped
to the parsed content of `<dir>/<locale>.json`, or `none` when the file
is absent or unparsable (`loadLocale` returns `null` for both). Locale
files are JSON objects, so contents are field lists; a write is
`JSON.stringify(data, null, 2)` followed by `fs.writeFile`, and
`JSON.parse ∘ JSON.stringify` is the identity on these values, so writes
update the store at the JVal level. -/
def Store := String → Option Fields

/-- Write `<dir>/<locale>.json`. -/
def storeWrite (store : Store) (locale : String) (data : Fields) : Store :=
  fun l => if l = locale then some data else store l

/-- The filter opening `addMissingKeys` (`analizer.ts` lines 431–433):
`keyStatuses.filter((s) => s.inCode && (!s.inEN || !s.inES))`. -/
def selectMissing (keyStatuses : List KeyStatus) : List KeyStatus :=
  keyStatuses.filter fun s => s.inCode && (!s.inEN || !s.inES)

/-- The loop body of `addMissingKeys` for one selected key status: ask
for a value once (`inputs s.key`; the empty answer synthesizes the
`[key]` placeholder), then for each of the two locales that lacks the
key, re-load that locale's file (`|| {}` when it cannot be loaded), set
the key and write the file back. Returns the updated store and the list
of files written, in order. -/
def addTranslation (inputs : String → String) (store : Store)
    (s : KeyStatus) : Store × List String :=
  let defaultValue := inputs s.key
  let translation := if defaultValue = "" then "[" ++ s.key ++ "]" else defaultValue
  let (store1, w1) :=
    if !s.inEN then
      let enData := (store "en").getD []
      (storeWrite store "en" (setNestedKey enData (jsSplitDot s.key) translation),
       ["en"])
    else (store, [])
  if !s.inES then
    let esData := (store1 "es").getD []
    (storeWrite store1 "es" (setNestedKey esData (jsSplitDot s.key) translation),
     w1 ++ ["es"])
  else (store1, w1)

/-- `addMissingKeys(results)` from `analizer.ts`, over the store: no
selected key, or a declined confirmation, leaves the store untouched;
otherwise each selected key is processed in order by `addTranslation`.
The second component lists every file written, in order. -/
def addMissingKeys (keyStatuses : List KeyStatus) (confirm : Bool)
    (inputs : String → String) (store : Store) : Store × List String :=
  let keysInCodeOnly := selectMissing keyStatuses
  if keysInCodeOnly.isEmpty then (store, [])
  else if !confirm then (store, [])
  else
    keysInCodeOnly.foldl
      (fun acc s =>
        let r := addTranslation inputs acc.1 s
        (r.1, acc.2 ++ r.2))
      (store, [])

/-- The fields of an object value (`removeKey` applied to an object
always yields an object, so this loses nothing below). -/
def objFields : JVal → Fields
  | .obj f => f
  | _ => []

/-- `deleteKeysFromLocale(results, locale)` from `analizer.ts`, over the
store: the unused keys of the target locale are
`keyStatuses.filter((s) => (locale === "en" ? s.inEN : s.inES) && !s.inCode)`;
with no unused key, or either confirmation declined, nothing is read or
written; otherwise the locale file is loaded (nothing is written if that
fails), every unused key is removed from it and the updated tree is
written once at the end. The second component lists the files written. -/
def deleteKeysFromLocale (keyStatuses : List KeyStatus) (locale : String)
    (confirm1 confirm2 : Bool) (store : Store) : Store × List String :=
  let keysInLocaleOnly := keyStatuses.filter
    fun s => (if locale = "en" then s.inEN else s.inES) && !s.inCode
  if keysInLocaleOnly.isEmpty then (store, [])
  else if !confirm1 then (store, [])
  else if !confirm2 then (store, [])
  else
    match store locale with
    | none => (store, [])
    | some localeData =>
      let newData := keysInLocaleOnly.foldl
        (fun d s => objFields (removeKey (.obj d) (jsSplitDot s.key)).1)
        localeData
      (storeWrite store locale newData, [locale])

/-- The key set claim C3 ascribes to the add-missing selection, written
from the claim's words for comparison with `selectMissing`: keys of the
analysis universe that are used in code but absent from the default
locale or from some *available* (successfully loaded) secondary locale;
an unavailable secondary locale is excluded from the conjunction. -/
def specMissingKeys (enData : Fields) (esData : Option Fields)
    (usedKeys : List String) : List String :=
  let defaultLocaleKeys := getKeysF enData ""
  let esKeys := match esData with | some d => getKeysF d "" | none => []
  let allUniqueKeys := dedupKeys (dedupKeys (defaultLocaleKeys ++ esKeys) ++ usedKeys)
  allUniqueKeys.filter fun k =>
    usedKeys.contains k &&
    !(defaultLocaleKeys.contains k &&
      (match esData with | some _ => esKeys.contains k | none => true))

mutual
/-- Like `getKeys`, but pairing every flattened key with its leaf's
string value (non-string leaves, outside the string-leaved trees the
round-trip claim quantifies over, are paired with `""`). Projecting the
first components gives exactly `getKeys`. -/
def entriesV : JVal → String → List (String × String)
  | .obj fields, pre => entriesF fields pre
  | _, _ => []

/-- `entriesV` iterated over the fields of an object. -/
def entriesF : Fields → String → List (String × String)
  | [], _ => []
  | (k, v) :: rest, pre =>
    let fullKey := if pre == "" then k else pre ++ "." ++ k
    (match v with
     | .obj _ => entriesV v fullKey
     | .str s => [(fullKey, s)]
     | _ => [(fullKey, "")]) ++ entriesF rest pre
termination_by structural fs => fs
end

/-- Re-nesting flattened entries: starting from an empty tree, apply
`setNestedKey` for each flattened key (split at dots exactly as
`addMissingKeys` splits keys) with its leaf value — the spec's
`unflatten`. -/
def unflatten (entries : List (String × String)) : Fields :=
  entries.foldl (fun acc e => setNestedKey acc (jsSplitDot e.1) e.2) []

mutual
/-- Path-level flattening: the entries of `entriesV`, with the flattened
key kept as its list of path segments instead of a dot-joined string. -/
def pathEntriesV : JVal → List (List String × String)
  | .obj fields => pathEntriesF fields
  | _ => []

/-- `pathEntriesV` iterated over the fields of an object. -/
def pathEntriesF : Fields → List (List String × String)
  | [] => []
  | (k, v) :: rest =>
    (match v with
     | .obj _ => (pathEntriesV v).map (fun e => (k :: e.1, e.2))
     | .str s => [([k], s)]
     | _ => [([k], "")]) ++ pathEntriesF rest
termination_by structural fs => fs
end

/-- The accumulation of dot-joined keys performed by `getKeys` along a
path: fold the `prefix ? prefix + "." + key : key` step over the
segments. -/
def foldJoin (pre : String) (p : List String) : String :=
  p.foldl (fun acc k => if acc == "" then k else acc ++ "." ++ k) pre

/-- A usable path segment: nonempty and containing no dot. -/
def goodSeg (k : String) : Bool :=
  decide (k ≠ "") && !(k.data.contains '.')

mutual
/-- A well-formed dictionary value: every object has pairwise-distinct
field names (as `JSON.parse` guarantees), all nonempty and dot-free. -/
def wfVal : JVal → Bool
  | .obj fields => wfFields fields
  | _ => true

/-- `wfVal` for the fields of an object. -/
def wfFields : Fields → Bool
  | [] => true
  | (k, v) :: rest =>
    goodSeg k && !hasField rest k && wfVal v && wfFields rest
termination_by structural fs => fs
end

mutual
/-- A tree all of whose leaves are strings (nodes are plain objects). -/
def strTreeV : JVal → Bool
  | .str _ => true
  | .obj fields => strTreeF fields
  | _ => false

/-- `strTreeV` for the fields of an object. -/
def strTreeF : Fields → Bool
  | [] => true
  | (_, v) :: rest => strTreeV v && strTreeF rest
termination_by structural fs => fs
end

mutual
/-- No proper subtree is an empty object: every field value is non-empty
(as an object) and recursively so. The root itself may be empty. -/
def noEmptyV : JVal → Bool
  | .obj fields => noEmptyF fields
  | _ => true

/-- `noEmptyV` for the fields of an object. -/
def noEmptyF : Fields → Bool
  | [] => true
  | (_, v) :: rest => !isEmptyObj v && noEmptyV v && noEmptyF rest
termination_by structural fs => fs
end

/-- `isInit p q`: the segment list `p` is an initial segment of `q`. -/
def isInit : List String → List String → Bool
  | [], _ => true
  | _ :: _, [] => false
  | a :: as, b :: bs => a == b && isInit as bs

/-- Two paths are incomparable: neither is an initial segment of the
other. Distinct leaves of a tree always have incomparable paths. -/
def pathIncomp (p q : List String) : Bool := !isInit p q && !isInit q p

/-- Reading the value stored at a path of segments (the walk performed by
the runtime lookup, and the inverse notion to `setNestedKey`). -/
def valueAt : Fields → List String → Option JVal
  | _, [] => none
  | fields, [k] => getField fields k
  | fields, k :: k2 :: rest =>
    match getField fields k with
    | some (.obj f2) => valueAt f2 (k2 :: rest)
    | _ => none

/-- The per-field block of `pathEntriesF`: the path entries contributed
by one field `(k, v)` (the match arm of `pathEntriesF`). -/
def blockEntries (k : String) (v : JVal) : List (List String × String) :=
  match v with
  | .obj _ => (pathEntriesV v).map (fun e => (k :: e.1, e.2))
  | .str s => [([k], s)]
  | _ => [([k], "")]

/-- The characters `"." + k₁ + "." + k₂ + ⋯` appended by `foldJoin` after
its first segment. -/
def dotJoin : List String → List Char
  | [] => []
  | k :: ps => '.' :: k.data ++ dotJoin ps

/-- Re-nesting a list of path-level entries by folding `setNestedKey`
(what `unflatten` does after splitting each key at dots). -/
def unflattenP (es : List (List String × String)) (acc : Fields) : Fields :=
  es.foldl (fun a e => setNestedKey a e.1 e.2) acc


/-- Strict case-sensitive lexicographic (code-point) comparison of
character lists, written from claim C2's words for comparison with the
order the analyzer actually produces. -/
def codePointLtChars : List Char → List Char → Bool
  | [], [] => false
  | [], _ :: _ => true
  | _ :: _, [] => false
  | c :: cs, d :: ds =>
    if c.toNat < d.toNat then true
    else if d.toNat < c.toNat then false
    else codePointLtChars cs ds

/-- Strict case-sensitive code-point comparison of strings (claim C2). -/
def codePointLt (a b : String) : Bool := codePointLtChars a.data b.data

/-! ## Basic lemmas about field lists -/

theorem getField_none_iff {fields : Fields} {k : String} :
    getField fields k = none ↔ hasField fields k = false := by
  induction fields with
  | nil => simp [getField, hasField]
  | cons p rest ih =>
    by_cases hk : p.1 = k <;> simp [getField, hasField, hk, ih]

theorem hasField_of_getField {fields : Fields} {k : String} {v : JVal}
    (h : getField fields k = some v) : hasField fields k = true := by
  by_contra hc
  rw [getField_none_iff.mpr (Bool.not_eq_true _ ▸ hc)] at h
  exact Option.noConfusion h

theorem getField_mem {fields : Fields} {k : String} {v : JVal}
    (h : getField fields k = some v) : (k, v) ∈ fields := by
  induction fields with
  | nil => simp [getField] at h
  | cons p rest ih =>
    obtain ⟨a, b⟩ := p
    by_cases hk : a = k
    · subst hk
      simp only [getField, beq_self_eq_true, if_true] at h
      injection h with h'
      subst h'
      exact List.mem_cons_self _ _
    · simp only [getField] at h
      rw [if_neg (by simpa using hk)] at h
      exact List.mem_cons_of_mem _ (ih h)

theorem getField_setField_self (fields : Fields) (k : String) (v : JVal) :
    getField (setField fields k v) k = some v := by
  induction fields with
  | nil => simp [setField, getField]
  | cons p rest ih =>
    by_cases hk : p.1 = k <;>
      simp [setField, getField, hk, ih]

theorem getField_setField_ne (fields : Fields) {k k' : String} (v : JVal)
    (h : k' ≠ k) : getField (setField fields k v) k' = getField fields k' := by
  induction fields with
  | nil => simp [setField, getField, Ne.symm h]
  | cons p rest ih =>
    by_cases hk : p.1 = k
    · simp [setField, getField, hk, Ne.symm h]
    · by_cases hk' : p.1 = k' <;> simp [setField, getField, hk, hk', h, ih]


theorem setField_getField_self {fields : Fields} {k : String} {v : JVal}
    (h : getField fields k = some v) : setField fields k v = fields := by
  induction fields with
  | nil => simp [getField] at h
  | cons p rest ih =>
    obtain ⟨a, b⟩ := p
    by_cases hk : a = k
    · subst hk
      simp only [getField, beq_self_eq_true, if_true] at h
      injection h with h'
      subst h'
      simp [setField]
    · simp only [getField] at h
      rw [if_neg (by simpa using hk)] at h
      simp [setField, hk, ih h]

/-! ## Lemmas about `removeKey` -/

theorem removeKey_not_removed : ∀ (p : List String) (v : JVal),
    (removeKey v p).2 = false → (removeKey v p).1 = v := by
  intro p
  induction p with
  | nil => intro v _; cases v <;> rfl
  | cons k p' ih =>
    intro v h
    match v, p' with
    | .str _, _ => rfl
    | .nullV, _ => rfl
    | .arr _, _ => rfl
    | .obj fields, [] =>
      by_cases hf : hasField fields k = true
      · simp [removeKey, hf] at h
      · simp [removeKey, hf]
    | .obj fields, k2 :: rest =>
      cases hget : getField fields k with
      | none => simp [removeKey, hget]
      | some child =>
        match child with
        | .str s => simp [removeKey, hget]
        | .arr l => simp [removeKey, hget]
        | .nullV =>
          simp only [removeKey, hget] at h ⊢
          exact congrArg JVal.obj (setField_getField_self hget)
        | .obj cf =>
          simp only [removeKey, hget] at h ⊢
          by_cases hcond :
              ((removeKey (JVal.obj cf) (k2 :: rest)).2
                && isEmptyObj (removeKey (JVal.obj cf) (k2 :: rest)).1) = true
          · rw [if_pos hcond] at h
            simp at h
          · rw [if_neg hcond] at h ⊢
            simp only at h
            rw [ih _ h]
            exact congrArg JVal.obj (setField_getField_self hget)

theorem noEmptyF_cons {a : String} {b : JVal} {rest : Fields} :
    noEmptyF ((a, b) :: rest) = true ↔
      isEmptyObj b = false ∧ noEmptyV b = true ∧ noEmptyF rest = true := by
  simp [noEmptyF, Bool.and_assoc]

theorem noEmptyF_eraseField {fields : Fields} {k : String}
    (h : noEmptyF fields = true) : noEmptyF (eraseField fields k) = true := by
  induction fields with
  | nil => simpa [eraseField] using h
  | cons p rest ih =>
    obtain ⟨a, b⟩ := p
    obtain ⟨h1, h2, h3⟩ := noEmptyF_cons.mp h
    by_cases hk : a = k
    · subst hk
      simpa [eraseField] using h3
    · simp only [eraseField]
      rw [if_neg (by simpa using hk)]
      exact noEmptyF_cons.mpr ⟨h1, h2, ih h3⟩

theorem noEmptyF_setField {fields : Fields} {k : String} {v : JVal}
    (h : noEmptyF fields = true) (hv : noEmptyV v = true)
    (he : isEmptyObj v = false) : noEmptyF (setField fields k v) = true := by
  induction fields with
  | nil =>
    simp only [setField]
    exact noEmptyF_cons.mpr ⟨he, hv, rfl⟩
  | cons p rest ih =>
    obtain ⟨a, b⟩ := p
    obtain ⟨h1, h2, h3⟩ := noEmptyF_cons.mp h
    by_cases hk : a = k
    · subst hk
      simp only [setField, beq_self_eq_true, if_true]
      exact noEmptyF_cons.mpr ⟨he, hv, h3⟩
    · simp only [setField]
      rw [if_neg (by simpa using hk)]
      exact noEmptyF_cons.mpr ⟨h1, h2, ih h3⟩

theorem noEmpty_of_getField {fields : Fields} {k : String} {v : JVal}
    (h : noEmptyF fields = true) (hget : getField fields k = some v) :
    noEmptyV v = true ∧ isEmptyObj v = false := by
  induction fields with
  | nil => simp [getField] at hget
  | cons p rest ih =>
    obtain ⟨a, b⟩ := p
    obtain ⟨h1, h2, h3⟩ := noEmptyF_cons.mp h
    by_cases hk : a = k
    · subst hk
      simp only [getField, beq_self_eq_true, if_true] at hget
      injection hget with h'
      subst h'
      exact ⟨h2, h1⟩
    · simp only [getField] at hget
      rw [if_neg (by simpa using hk)] at hget
      exact ih h3 hget

theorem removeKey_noEmpty : ∀ (p : List String) (v : JVal),
    noEmptyV v = true → noEmptyV (removeKey v p).1 = true := by
  intro p
  induction p with
  | nil => intro v h; cases v <;> simpa using h
  | cons k p' ih =>
    intro v h
    match v, p' with
    | .str _, _ => exact h
    | .nullV, _ => exact h
    | .arr _, _ => exact h
    | .obj fields, [] =>
      by_cases hf : hasField fields k = true
      · simp only [removeKey, if_pos hf]
        simpa [noEmptyV] using noEmptyF_eraseField (by simpa using h)
      · simpa [removeKey, hf] using h
    | .obj fields, k2 :: rest =>
      cases hget : getField fields k with
      | none => simpa [removeKey, hget] using h
      | some child =>
        match child with
        | .str s => simpa [removeKey, hget] using h
        | .arr l => simpa [removeKey, hget] using h
        | .nullV =>
          simp only [removeKey, hget]
          simp only [noEmptyV] at h ⊢
          exact noEmptyF_setField (by simpa using h) rfl rfl
        | .obj cf =>
          have hchild := noEmpty_of_getField (show noEmptyF fields = true by
            simpa [noEmptyV] using h) hget
          simp only [removeKey, hget]
          by_cases hcond :
              ((removeKey (JVal.obj cf) (k2 :: rest)).2
                && isEmptyObj (removeKey (JVal.obj cf) (k2 :: rest)).1) = true
          · rw [if_pos hcond]
            simpa [noEmptyV] using noEmptyF_eraseField (by simpa [noEmptyV] using h)
          · rw [if_neg hcond]
            have hr : noEmptyV (removeKey (JVal.obj cf) (k2 :: rest)).1 = true :=
              ih _ hchild.1
            have hre : isEmptyObj (removeKey (JVal.obj cf) (k2 :: rest)).1 = false := by
              by_cases h2 : (removeKey (JVal.obj cf) (k2 :: rest)).2 = true
              · cases he : isEmptyObj (removeKey (JVal.obj cf) (k2 :: rest)).1 with
                | false => rfl
                | true => exact absurd (by simp [h2, he]) hcond
              · rw [removeKey_not_removed _ _ (by simpa using h2)]
                exact hchild.2
            simp only [noEmptyV]
            exact noEmptyF_setField (by simpa [noEmptyV] using h) hr hre

/-! ## Claim C5: cascading prune of emptied ancestors -/

/-- C5: `removeKey` cascades the pruning of emptied ancestors: removing
path `a.b.c` from `{a: {b: {c: "x"}}}` yields the empty tree `{}` (both
`b` and `a` are pruned) and the call returns `true`; in general, a tree
with no empty sub-object keeps that invariant through any removal, so a
parent node left with zero keys never survives a recursive deletion. -/
theorem c5_remove_prunes_empty_ancestors :
    (removeKey (.obj [("a", .obj [("b", .obj [("c", .str "x")])])]) ["a", "b", "c"]
      = (.obj [], true))
    ∧ ∀ (v : JVal) (p : List String),
        noEmptyV v = true → noEmptyV (removeKey v p).1 = true :=
  ⟨rfl, fun v p h => removeKey_noEmpty p v h⟩

/-- Witness for `c5_remove_prunes_empty_ancestors` at a concrete tree. -/
theorem c5_remove_prunes_empty_ancestors_witness :
    noEmptyV (.obj [("a", .obj [("b", .str "1")]), ("c", .str "2")]) = true
    ∧ noEmptyV (removeKey (.obj [("a", .obj [("b", .str "1")]), ("c", .str "2")])
        ["a", "b"]).1 = true :=
  ⟨by decide, c5_remove_prunes_empty_ancestors.2 _ ["a", "b"] (by decide)⟩

/-! ## Claim C10: flattening a non-object root -/

/-- C10: `getKeys` applied to a root value that is not a plain non-array
object — `null`, an array, a string — returns the empty key set for
every prefix: no dot-path is emitted for a top-level leaf (and the
function, being total, never throws). -/
theorem c10_flatten_non_object_is_empty :
    ∀ pre : String, getKeys .nullV pre = []
      ∧ (∀ l, getKeys (.arr l) pre = [])
      ∧ (∀ s, getKeys (.str s) pre = []) :=
  fun _ => ⟨rfl, fun _ => rfl, fun _ => rfl⟩

/-! ## Claim C1: the two failure modes of `loadLocale` -/

/-- C1 counterexample: with a parse function that rejects its input, the
load of a missing file and the load of a present-but-unparsable file
return the very same value `none` — a caller cannot tell a missing file
from an unparsable one by the result `loadLocale` gives it; only the
console-diagnostic flag differs between the two runs. -/
theorem c1_counterexample :
    (loadLocale none (fun _ => none)).1
      = (loadLocale (some "not json") (fun _ => none)).1
    ∧ loadLocale none (fun _ => none) = (none, false)
    ∧ loadLocale (some "not json") (fun _ => none) = (none, true) :=
  ⟨rfl, rfl, rfl⟩

/-- C1 amended: a missing locale file yields `null` silently; a file that
exists but fails to parse prints an explicit console error and also
yields `null`; a file that parses yields its data. The two failure modes
are distinguished only by the printed diagnostic, never by the value the
caller receives. -/
theorem c1_load_failure_modes (parseJSON : String → Option JVal) (c : String) :
    loadLocale none parseJSON = (none, false)
    ∧ (parseJSON c = none → loadLocale (some c) parseJSON = (none, true))
    ∧ (∀ d, parseJSON c = some d →
        loadLocale (some c) parseJSON = (some d, false)) := by
  refine ⟨rfl, fun h => ?_, fun d h => ?_⟩ <;> simp [loadLocale, h]

/-- Witness for `c1_load_failure_modes` at a concrete parse function. -/
theorem c1_load_failure_modes_witness :
    loadLocale none (fun _ => none) = (none, false)
    ∧ loadLocale (some "bad json") (fun _ => none) = (none, true) :=
  ⟨(c1_load_failure_modes (fun _ => none) "bad json").1,
   (c1_load_failure_modes (fun _ => none) "bad json").2.1 rfl⟩

/-! ## Claim C6: runtime lookup walks the path or returns the key -/

theorem splitDotChars_ne_nil : ∀ cs, splitDotChars cs ≠ [] := by
  intro cs
  induction cs with
  | nil => simp [splitDotChars]
  | cons c cs ih =>
    simp only [splitDotChars]
    by_cases hc : c = '.'
    · simp [hc]
    · rw [if_neg hc]
      cases h : splitDotChars cs with
      | nil => simp
      | cons g gs => simp

theorem jsSplitDot_ne_nil (s : String) : jsSplitDot s ≠ [] := by
  intro h
  simp only [jsSplitDot] at h
  exact splitDotChars_ne_nil s.data (by
    cases hc : splitDotChars s.data with
    | nil => rfl
    | cons g gs => rw [hc] at h; simp at h)

theorem tGo_eq_valueAt (key : String) :
    ∀ (p : List String) (fields : Fields), p ≠ [] →
      tGo key (.obj fields) p =
        (match valueAt fields p with
         | some (.str s) => s
         | _ => key) := by
  intro p
  induction p with
  | nil => intro fields h; exact absurd rfl h
  | cons k p' ih =>
    intro fields _
    match p' with
    | [] =>
      simp only [tGo, valueAt]
      cases hget : getField fields k with
      | none => rfl
      | some v2 => cases v2 <;> rfl
    | k2 :: rest =>
      simp only [tGo, valueAt]
      cases hget : getField fields k with
      | none => rfl
      | some v2 =>
        match v2 with
        | .obj f2 => exact ih f2 (by simp)
        | .str s => rfl
        | .nullV => rfl
        | .arr l => rfl

/-- C6: on a dictionary (nested string maps, the `Dictionary` type of the
runtime), `t` returns exactly the string found by walking the key's dot
segments, and returns the original key unchanged whenever a segment is
missing or the resolved value is not a string; being total it never
throws, and a missing translation never yields blank text for a nonblank
key. -/
theorem c6_lookup_fallback (dictionary : Fields) (key : String)
    (_hdict : strTreeF dictionary = true) :
    tRun dictionary key =
      (match valueAt dictionary (jsSplitDot key) with
       | some (.str s) => s
       | _ => key)
    ∧ (valueAt dictionary (jsSplitDot key) = none → tRun dictionary key = key)
    ∧ (key ≠ "" → valueAt dictionary (jsSplitDot key) = none →
        tRun dictionary key ≠ "") := by
  have hmain : tRun dictionary key =
      (match valueAt dictionary (jsSplitDot key) with
       | some (.str s) => s
       | _ => key) :=
    tGo_eq_valueAt key (jsSplitDot key) dictionary (jsSplitDot_ne_nil key)
  refine ⟨hmain, fun h => ?_, fun hk h => ?_⟩
  · rw [hmain, h]
  · rw [hmain, h]
    exact hk

/-- Witness for `c6_lookup_fallback` at a concrete dictionary. -/
theorem c6_lookup_fallback_witness :
    tRun [("a", .obj [("b", .str "hi")])] "a.b"
      = (match valueAt [("a", .obj [("b", .str "hi")])] (jsSplitDot "a.b") with
         | some (.str s) => s
         | _ => "a.b") :=
  (c6_lookup_fallback [("a", .obj [("b", .str "hi")])] "a.b" (by decide)).1

/-! ## Claim C2: sort order of the report -/

theorem collLe_total : ∀ u v : List (Nat × Nat),
    collLe u v = true ∨ collLe v u = true := by
  intro u
  induction u with
  | nil => intro v; left; rfl
  | cons a as ih =>
    intro v
    cases v with
    | nil => right; rfl
    | cons b bs =>
      by_cases h1 : a.1 < b.1
      · left; simp [collLe, h1]
      · by_cases h2 : b.1 < a.1
        · right; simp [collLe, h2]
        · by_cases h3 : a.2 < b.2
          · left; simp [collLe, h1, h2, h3]
          · by_cases h4 : b.2 < a.2
            · right; simp [collLe, h1, h2, h4]
            · cases ih bs with
              | inl hl => left; simp [collLe, h1, h2, h3, h4, hl]
              | inr hr => right; simp [collLe, h1, h2, h3, h4, hr]

theorem localeLe_total (a b : String) :
    localeLe a b = true ∨ localeLe b a = true :=
  collLe_total (collSeq a) (collSeq b)

theorem insertStatus_chain (s : KeyStatus) :
    ∀ l : List KeyStatus,
      l.Chain' (fun a b => localeLe a.key b.key = true) →
      (insertStatus s l).Chain' (fun a b => localeLe a.key b.key = true) := by
  intro l
  induction l with
  | nil => intro _; simp [insertStatus]
  | cons t ts ih =>
    intro h
    simp only [insertStatus]
    by_cases hle : localeLe s.key t.key = true
    · rw [if_pos hle]
      exact List.chain'_cons.mpr ⟨hle, h⟩
    · rw [if_neg hle]
      have hts : ts.Chain' (fun a b => localeLe a.key b.key = true) := h.tail
      refine List.chain'_cons'.mpr ⟨?_, ih hts⟩
      intro y hy
      cases ts with
      | nil =>
        simp [insertStatus] at hy
        subst hy
        cases localeLe_total s.key t.key with
        | inl hl => exact absurd hl hle
        | inr hr => exact hr
      | cons t2 ts2 =>
        simp only [insertStatus] at hy
        by_cases hle2 : localeLe s.key t2.key = true
        · rw [if_pos hle2] at hy
          simp at hy
          subst hy
          cases localeLe_total s.key t.key with
          | inl hl => exact absurd hl hle
          | inr hr => exact hr
        · rw [if_neg hle2] at hy
          simp at hy
          subst hy
          exact (List.chain'_cons.mp h).1

theorem sortKeyStatuses_chain (l : List KeyStatus) :
    (sortKeyStatuses l).Chain' (fun a b => localeLe a.key b.key = true) := by
  induction l with
  | nil => simp [sortKeyStatuses]
  | cons x l ih => exact insertStatus_chain x _ ih

/-- C2 counterexample: the analysis of used keys `["a", "B"]` (no locale
keys) reports the rows in the order `a`, `B` — the `localeCompare`
collation puts `"a"` before `"B"` — yet `"a"` is not smaller than `"B"`
under case-sensitive code-point comparison (`U+0061` vs `U+0042`), so
the adjacent pair of report entries is not in strictly ascending
code-point order. -/
theorem c2_counterexample :
    (analyzeKeyStatuses [] none ["a", "B"]).map KeyStatus.key = ["a", "B"]
    ∧ codePointLt "a" "B" = false := by
  constructor
  · rfl
  · rfl

/-- C2 amended: the per-key report is sorted ascending by the
`localeCompare` collation (case-insensitive primary weight, lowercase
before uppercase on ties) — every adjacent pair of `keyStatuses`
satisfies `localeLe` — rather than by case-sensitive code-point
comparison. -/
theorem c2_sorted_by_locale_compare (enData : Fields) (esData : Option Fields)
    (usedKeys : List String) :
    (analyzeKeyStatuses enData esData usedKeys).Chain'
      (fun a b => localeLe a.key b.key = true) :=
  sortKeyStatuses_chain _

/-! ## Claim C3: the add-missing selection -/

theorem mem_addUnique {acc : List String} {x k : String} :
    k ∈ addUnique acc x ↔ k ∈ acc ∨ k = x := by
  by_cases h : x ∈ acc
  · simp only [addUnique, if_pos h]
    constructor
    · exact Or.inl
    · rintro (hk | rfl)
      · exact hk
      · exact h
  · simp [addUnique, if_neg h]

theorem mem_dedup_fold :
    ∀ (l acc : List String) (k : String),
      k ∈ l.foldl addUnique acc ↔ k ∈ acc ∨ k ∈ l := by
  intro l
  induction l with
  | nil => intro acc k; simp
  | cons x l ih =>
    intro acc k
    simp only [List.foldl_cons, ih, mem_addUnique, List.mem_cons]
    tauto

theorem mem_dedupKeys {l : List String} {k : String} :
    k ∈ dedupKeys l ↔ k ∈ l := by
  simp [dedupKeys, mem_dedup_fold]

theorem mem_insertStatus {s s' : KeyStatus} :
    ∀ {l : List KeyStatus}, s' ∈ insertStatus s l ↔ s' = s ∨ s' ∈ l := by
  intro l
  induction l with
  | nil => simp [insertStatus]
  | cons t ts ih =>
    simp only [insertStatus]
    by_cases hle : localeLe s.key t.key = true
    · rw [if_pos hle]
      simp
    · rw [if_neg hle]
      simp only [List.mem_cons, ih]
      tauto

theorem mem_sortKeyStatuses {s : KeyStatus} :
    ∀ {l : List KeyStatus}, s ∈ sortKeyStatuses l ↔ s ∈ l := by
  intro l
  induction l with
  | nil => simp [sortKeyStatuses]
  | cons x l ih =>
    show s ∈ insertStatus x (sortKeyStatuses l) ↔ _
    simp only [mem_insertStatus, ih, List.mem_cons]

/-- C3 counterexample: with the secondary locale file not loaded
(`esData = none`), default locale `{"a": "x"}` and used keys `{"a"}`, the
add-missing filter selects `"a"` — because `inES` defaults to `false`
for every key — although the claim's set (which drops an unavailable
locale from the conjunction) is empty, `"a"` being present in every
loaded locale. -/
theorem c3_counterexample :
    (selectMissing (analyzeKeyStatuses [("a", .str "x")] none ["a"])).map
      KeyStatus.key = ["a"]
    ∧ specMissingKeys [("a", .str "x")] none ["a"] = [] := by
  constructor
  · rfl
  · rfl

/-- C3 amended: the add-missing operation selects exactly the keys of the
analysis universe that are used in code and missing from the default
locale *or* from the secondary locale, where a secondary locale that was
not loaded counts as lacking every key (its presence flags default to
`false`), so with `es.json` absent every key used in code is selected. -/
theorem c3_missing_selection (enData : Fields) (esData : Option Fields)
    (usedKeys : List String) (k : String) :
    k ∈ (selectMissing (analyzeKeyStatuses enData esData usedKeys)).map
        KeyStatus.key
    ↔ (k ∈ getKeysF enData ""
        ∨ (∃ d, esData = some d ∧ k ∈ getKeysF d "")
        ∨ k ∈ usedKeys)
      ∧ k ∈ usedKeys
      ∧ (k ∉ getKeysF enData ""
        ∨ ∀ d, esData = some d → k ∉ getKeysF d "") := by
  cases esData with
  | none =>
    simp [selectMissing, analyzeKeyStatuses, mkKeyStatuses,
      mem_sortKeyStatuses, mem_dedupKeys, List.mem_filter, List.mem_map]
    constructor
    · rintro ⟨a, ⟨⟨k', hk', rfl⟩, hc, _⟩, hkey⟩
      have hk2 : k' = k := hkey
      subst hk2
      exact ⟨hk', of_decide_eq_true hc⟩
    · rintro ⟨huniv, hused⟩
      exact ⟨_, ⟨⟨k, huniv, rfl⟩, decide_eq_true hused, Or.inr rfl⟩, rfl⟩
  | some d =>
    simp [selectMissing, analyzeKeyStatuses, mkKeyStatuses,
      mem_sortKeyStatuses, mem_dedupKeys, List.mem_filter, List.mem_map]
    constructor
    · rintro ⟨a, ⟨⟨k', hk', rfl⟩, hc, hmiss⟩, hkey⟩
      have hk2 : k' = k := hkey
      subst hk2
      refine ⟨?_, of_decide_eq_true hc, ?_⟩
      · rcases hk' with (h | h) | h
        · exact Or.inl h
        · exact Or.inr (Or.inl h)
        · exact Or.inr (Or.inr h)
      · rcases hmiss with h | h
        · exact Or.inl (of_decide_eq_false h)
        · exact Or.inr (of_decide_eq_false h)
    · rintro ⟨huniv, hused, hmiss⟩
      refine ⟨_, ⟨⟨k, ?_, rfl⟩, decide_eq_true hused, ?_⟩, rfl⟩
      · rcases huniv with h | h | h
        · exact Or.inl (Or.inl h)
        · exact Or.inl (Or.inr h)
        · exact Or.inr h
      · rcases hmiss with h | h
        · exact Or.inl (decide_eq_false h)
        · exact Or.inr (decide_eq_false h)

/-! ## Claim C8: untargeted locale files are untouched -/

theorem addTranslation_frame (inputs : String → String) (store : Store)
    (s : KeyStatus) (l : String) (h1 : l ≠ "en") (h2 : l ≠ "es") :
    (addTranslation inputs store s).1 l = store l := by
  cases hEN : s.inEN <;> cases hES : s.inES <;>
    simp [addTranslation, hEN, hES, storeWrite, h1, h2]

theorem addTranslation_writes (inputs : String → String) (store : Store)
    (s : KeyStatus) :
    (addTranslation inputs store s).2
      = (if s.inEN then [] else ["en"]) ++ (if s.inES then [] else ["es"]) := by
  cases hEN : s.inEN <;> cases hES : s.inES <;>
    simp [addTranslation, hEN, hES]

theorem addFold_store_frame (inputs : String → String) :
    ∀ (ks : List KeyStatus) (store : Store) (log : List String) (l : String),
      l ≠ "en" → l ≠ "es" →
      (ks.foldl (fun acc s =>
        let r := addTranslation inputs acc.1 s
        (r.1, acc.2 ++ r.2)) (store, log)).1 l = store l := by
  intro ks
  induction ks with
  | nil => intro store log l _ _; rfl
  | cons s ks ih =>
    intro store log l h1 h2
    simp only [List.foldl_cons]
    rw [ih _ _ l h1 h2]
    exact addTranslation_frame inputs store s l h1 h2

theorem addFold_writes (inputs : String → String) :
    ∀ (ks : List KeyStatus) (store : Store) (log : List String) (l : String),
      l ∈ (ks.foldl (fun acc s =>
        let r := addTranslation inputs acc.1 s
        (r.1, acc.2 ++ r.2)) (store, log)).2 →
      l ∈ log ∨ (l = "en" ∧ ∃ s ∈ ks, s.inEN = false)
        ∨ (l = "es" ∧ ∃ s ∈ ks, s.inES = false) := by
  intro ks
  induction ks with
  | nil => intro store log l h; exact Or.inl h
  | cons s ks ih =>
    intro store log l h
    simp only [List.foldl_cons] at h
    rcases ih _ _ l h with hl | ⟨rfl, s2, hs2, hen⟩ | ⟨rfl, s2, hs2, hes⟩
    · rw [List.mem_append] at hl
      rcases hl with hl | hw
      · exact Or.inl hl
      · rw [addTranslation_writes] at hw
        rw [List.mem_append] at hw
        rcases hw with hw | hw
        · by_cases hEN : s.inEN = true
          · simp [hEN] at hw
          · simp [hEN] at hw
            subst hw
            exact Or.inr (Or.inl ⟨rfl, s, List.mem_cons_self _ _,
              Bool.not_eq_true _ ▸ hEN⟩)
        · by_cases hES : s.inES = true
          · simp [hES] at hw
          · simp [hES] at hw
            subst hw
            exact Or.inr (Or.inr ⟨rfl, s, List.mem_cons_self _ _,
              Bool.not_eq_true _ ▸ hES⟩)
    · exact Or.inr (Or.inl ⟨rfl, s2, List.mem_cons_of_mem _ hs2, hen⟩)
    · exact Or.inr (Or.inr ⟨rfl, s2, List.mem_cons_of_mem _ hs2, hes⟩)

/-- C8: both mutation operations leave files they do not target
untouched: delete-unused on locale `L` changes no entry other than `L`
and writes only `L.json`; add-missing changes no file other than
`en.json`/`es.json`, and writes one of those only when some selected key
is actually missing from that locale. -/
theorem c8_untargeted_files_untouched :
    (∀ (keyStatuses : List KeyStatus) (locale : String) (c1 c2 : Bool)
        (store : Store) (l : String), l ≠ locale →
      (deleteKeysFromLocale keyStatuses locale c1 c2 store).1 l = store l)
    ∧ (∀ (keyStatuses : List KeyStatus) (locale : String) (c1 c2 : Bool)
        (store : Store) (l : String),
        l ∈ (deleteKeysFromLocale keyStatuses locale c1 c2 store).2 →
          l = locale)
    ∧ (∀ (keyStatuses : List KeyStatus) (confirm : Bool)
        (inputs : String → String) (store : Store) (l : String),
        l ≠ "en" → l ≠ "es" →
      (addMissingKeys keyStatuses confirm inputs store).1 l = store l)
    ∧ (∀ (keyStatuses : List KeyStatus) (confirm : Bool)
        (inputs : String → String) (store : Store),
        ("en" ∈ (addMissingKeys keyStatuses confirm inputs store).2 →
          ∃ s ∈ selectMissing keyStatuses, s.inEN = false)
        ∧ ("es" ∈ (addMissingKeys keyStatuses confirm inputs store).2 →
          ∃ s ∈ selectMissing keyStatuses, s.inES = false)) := by
  refine ⟨?_, ?_, ?_, ?_⟩
  · intro keyStatuses locale c1 c2 store l hl
    by_cases he : (keyStatuses.filter fun s =>
        (if locale = "en" then s.inEN else s.inES) && !s.inCode).isEmpty = true
    · simp [deleteKeysFromLocale, he]
    · cases c1
      · simp [deleteKeysFromLocale, he]
      · cases c2
        · simp [deleteKeysFromLocale, he]
        · cases hst : store locale with
          | none => simp [deleteKeysFromLocale, he, hst]
          | some data => simp [deleteKeysFromLocale, he, hst, storeWrite, hl]
  · intro keyStatuses locale c1 c2 store l hl
    by_cases he : (keyStatuses.filter fun s =>
        (if locale = "en" then s.inEN else s.inES) && !s.inCode).isEmpty = true
    · simp [deleteKeysFromLocale, he] at hl
    · cases c1
      · simp [deleteKeysFromLocale, he] at hl
      · cases c2
        · simp [deleteKeysFromLocale, he] at hl
        · cases hst : store locale with
          | none => simp [deleteKeysFromLocale, he, hst] at hl
          | some data =>
            simp [deleteKeysFromLocale, he, hst] at hl
            exact hl
  · intro keyStatuses confirm inputs store l h1 h2
    by_cases he : (selectMissing keyStatuses).isEmpty = true
    · simp [addMissingKeys, he]
    · cases confirm
      · simp [addMissingKeys, he]
      · simp only [addMissingKeys]
        rw [if_neg (by simpa using he), if_neg (by simp)]
        exact addFold_store_frame inputs _ store [] l h1 h2
  · intro keyStatuses confirm inputs store
    constructor <;> intro hmem
    · by_cases he : (selectMissing keyStatuses).isEmpty = true
      · simp [addMissingKeys, he] at hmem
      · cases confirm
        · simp [addMissingKeys, he] at hmem
        · simp only [addMissingKeys] at hmem
          rw [if_neg (by simpa using he), if_neg (by simp)] at hmem
          rcases addFold_writes inputs _ store [] _ hmem with h | ⟨_, hs⟩ | ⟨hbad, _⟩
          · simp at h
          · exact hs
          · exact absurd hbad (by decide)
    · by_cases he : (selectMissing keyStatuses).isEmpty = true
      · simp [addMissingKeys, he] at hmem
      · cases confirm
        · simp [addMissingKeys, he] at hmem
        · simp only [addMissingKeys] at hmem
          rw [if_neg (by simpa using he), if_neg (by simp)] at hmem
          rcases addFold_writes inputs _ store [] _ hmem with h | ⟨hbad, _⟩ | ⟨_, hs⟩
          · simp at h
          · exact absurd hbad (by decide)
          · exact hs

/-- Witness for `c8_untargeted_files_untouched` at concrete stores. -/
theorem c8_untargeted_files_untouched_witness :
    (deleteKeysFromLocale [⟨"b", false, true, false⟩] "en" true true
      (fun _ => some [("b", .str "2")])).1 "es" = some [("b", .str "2")] :=
  c8_untargeted_files_untouched.1 [⟨"b", false, true, false⟩] "en" true true
    (fun _ => some [("b", .str "2")]) "es" (by decide)

/-! ## Claim C9: one value per key, written to both locales -/

theorem valueAt_setNestedKey (v : String) :
    ∀ (p : List String) (fields : Fields), p ≠ [] →
      valueAt (setNestedKey fields p v) p = some (.str v) := by
  intro p
  induction p with
  | nil => intro fields h; exact absurd rfl h
  | cons k p' ih =>
    intro fields _
    match p' with
    | [] =>
      simp only [setNestedKey, valueAt]
      exact getField_setField_self fields k (.str v)
    | k2 :: rest =>
      simp only [setNestedKey, valueAt]
      rw [getField_setField_self]
      exact ih _ (by simp)

/-- C9: per missing key, one value is obtained (the supplied input, or
the `[key]` placeholder when the input is empty) and that same string is
written into every locale lacking the key: after an add-missing pass
whose selection ends with a key `s` missing from both locales, both
`en.json` and `es.json` hold that single string at the key's path. -/
theorem c9_same_value_in_both_locales
    (keyStatuses : List KeyStatus) (inputs : String → String) (store : Store)
    (pre : List KeyStatus) (s : KeyStatus)
    (hsel : selectMissing keyStatuses = pre ++ [s])
    (hen : s.inEN = false) (hes : s.inES = false) :
    ∃ enD esD,
      (addMissingKeys keyStatuses true inputs store).1 "en" = some enD
      ∧ (addMissingKeys keyStatuses true inputs store).1 "es" = some esD
      ∧ valueAt enD (jsSplitDot s.key)
          = some (.str (if inputs s.key = "" then "[" ++ s.key ++ "]"
                        else inputs s.key))
      ∧ valueAt esD (jsSplitDot s.key)
          = some (.str (if inputs s.key = "" then "[" ++ s.key ++ "]"
                        else inputs s.key)) := by
  have hne : ((pre ++ [s] : List KeyStatus).isEmpty) = false := by
    cases pre <;> rfl
  simp only [addMissingKeys, hsel, hne, Bool.false_eq_true, if_false,
    Bool.not_true, List.foldl_append, List.foldl_cons, List.foldl_nil]
  set acc := pre.foldl (fun acc s =>
    let r := addTranslation inputs acc.1 s
    (r.1, acc.2 ++ r.2)) (store, ([] : List String)) with hacc
  simp only [addTranslation, hen, hes, Bool.not_false, if_true, storeWrite]
  rw [if_neg (by decide : ¬("en" = "es")), if_neg (by decide : ¬("es" = "en"))]
  refine ⟨_, _, rfl, rfl, ?_, ?_⟩
  · exact valueAt_setNestedKey _ _ _ (jsSplitDot_ne_nil s.key)
  · exact valueAt_setNestedKey _ _ _ (jsSplitDot_ne_nil s.key)

/-- Witness for `c9_same_value_in_both_locales` at a concrete run. -/
theorem c9_same_value_in_both_locales_witness :
    ∃ enD esD,
      (addMissingKeys [⟨"a", true, false, false⟩] true (fun _ => "")
        (fun _ => none)).1 "en" = some enD
      ∧ (addMissingKeys [⟨"a", true, false, false⟩] true (fun _ => "")
        (fun _ => none)).1 "es" = some esD
      ∧ valueAt enD (jsSplitDot "a")
          = some (.str (if (fun _ : String => "") "a" = "" then "[" ++ "a" ++ "]"
                        else (fun _ : String => "") "a"))
      ∧ valueAt esD (jsSplitDot "a")
          = some (.str (if (fun _ : String => "") "a" = "" then "[" ++ "a" ++ "]"
                        else (fun _ : String => "") "a")) :=
  c9_same_value_in_both_locales [⟨"a", true, false, false⟩] (fun _ => "")
    (fun _ => none) [] ⟨"a", true, false, false⟩ (by rfl) rfl rfl

/-! ## Claim C4: flatten/unflatten round-trip.

Split/join lemmas: `foldJoin` (the key accumulation of `getKeys`) and
`jsSplitDot` (the key split of `setNestedKey`'s callers) are mutually
inverse on paths of nonempty dot-free segments. -/

theorem goodSeg_spec {k : String} (h : goodSeg k = true) :
    k ≠ "" ∧ '.' ∉ k.data := by
  simp only [goodSeg, Bool.and_eq_true, decide_eq_true_eq,
    Bool.not_eq_true'] at h
  refine ⟨h.1, fun hc => ?_⟩
  have h2 := h.2
  rw [List.contains_eq_any_beq] at h2
  simp only [List.any_eq_true, beq_iff_eq, Bool.eq_false_iff, ne_eq, not_exists,
    not_and] at h2
  exact h2 '.' hc rfl

theorem splitDotChars_no_dot {cs : List Char} (h : '.' ∉ cs) :
    splitDotChars cs = [cs] := by
  induction cs with
  | nil => rfl
  | cons c cs ih =>
    simp only [List.mem_cons, not_or] at h
    simp only [splitDotChars]
    rw [if_neg (fun hc => h.1 hc.symm), ih h.2]

theorem splitDotChars_append_dot {xs : List Char} (ys : List Char)
    (h : '.' ∉ xs) :
    splitDotChars (xs ++ '.' :: ys) = xs :: splitDotChars ys := by
  induction xs with
  | nil => simp [splitDotChars]
  | cons c cs ih =>
    simp only [List.mem_cons, not_or] at h
    show splitDotChars (c :: (cs ++ '.' :: ys)) = _
    simp only [splitDotChars]
    rw [if_neg (fun hc => h.1 hc.symm), ih h.2]

theorem foldJoin_data (ps : List String) :
    ∀ acc : String, acc ≠ "" →
      (foldJoin acc ps).data = acc.data ++ dotJoin ps := by
  induction ps with
  | nil => intro acc _; simp [foldJoin, dotJoin]
  | cons k ps ih =>
    intro acc hacc
    have hstep : foldJoin acc (k :: ps) = foldJoin (acc ++ "." ++ k) ps := by
      simp only [foldJoin, List.foldl_cons]
      rw [if_neg (by simpa using hacc)]
    rw [hstep, ih _ (by
      intro hc
      have hd : (acc ++ "." ++ k).data = [] := by rw [hc]
      simp [String.data_append] at hd)]
    simp [String.data_append, dotJoin]

theorem splitDotChars_dotJoin (ps : List String) :
    ∀ cs : List Char, '.' ∉ cs → (∀ seg ∈ ps, goodSeg seg = true) →
      splitDotChars (cs ++ dotJoin ps) = cs :: ps.map String.data := by
  induction ps with
  | nil => intro cs h _; simp [dotJoin, splitDotChars_no_dot h]
  | cons k ps ih =>
    intro cs h hgood
    have hk := goodSeg_spec (hgood k (List.mem_cons_self _ _))
    have : cs ++ dotJoin (k :: ps) = cs ++ '.' :: (k.data ++ dotJoin ps) := by
      simp [dotJoin]
    rw [this, splitDotChars_append_dot _ h,
      ih k.data hk.2 (fun seg hs => hgood seg (List.mem_cons_of_mem _ hs))]
    rfl

theorem jsSplitDot_foldJoin {p : List String} (hne : p ≠ [])
    (hgood : ∀ seg ∈ p, goodSeg seg = true) :
    jsSplitDot (foldJoin "" p) = p := by
  match p, hne with
  | k :: ps, _ =>
    have hk := goodSeg_spec (hgood k (List.mem_cons_self _ _))
    have hstep : foldJoin "" (k :: ps) = foldJoin k ps := by
      simp [foldJoin]
    rw [jsSplitDot, hstep, foldJoin_data ps k hk.1,
      splitDotChars_dotJoin ps k.data hk.2
        (fun seg hs => hgood seg (List.mem_cons_of_mem _ hs))]
    simp only [List.map_cons, List.map_map]
    have hid : ((fun cs => (⟨cs⟩ : String)) ∘ String.data) = id :=
      funext fun _ => rfl
    rw [hid, List.map_id]

/-! Bridge between the string-keyed and the path-level flattenings. -/

mutual
theorem entriesV_eq_path (v : JVal) :
    ∀ pre, entriesV v pre
      = (pathEntriesV v).map (fun e => (foldJoin pre e.1, e.2)) := by
  match v with
  | .obj fields => exact entriesF_eq_path fields
  | .str s => intro pre; rfl
  | .nullV => intro pre; rfl
  | .arr l => intro pre; rfl
termination_by structural v

theorem entriesF_eq_path (fields : Fields) :
    ∀ pre, entriesF fields pre
      = (pathEntriesF fields).map (fun e => (foldJoin pre e.1, e.2)) := by
  match fields with
  | [] => intro pre; rfl
  | (k, v) :: rest =>
    intro pre
    simp only [entriesF, pathEntriesF, List.map_append]
    rw [entriesF_eq_path rest pre]
    cases v with
    | obj f2 =>
      rw [entriesV_eq_path (.obj f2)]
      simp only [List.map_map]
      rfl
    | str s => rfl
    | nullV => rfl
    | arr l => rfl
termination_by structural fields
end

mutual
theorem getKeysV_eq_entries (v : JVal) :
    ∀ pre, getKeys v pre = (entriesV v pre).map Prod.fst := by
  match v with
  | .obj fields => exact getKeysF_eq_entries fields
  | .str s => intro pre; rfl
  | .nullV => intro pre; rfl
  | .arr l => intro pre; rfl
termination_by structural v

theorem getKeysF_eq_entries (fields : Fields) :
    ∀ pre, getKeysF fields pre = (entriesF fields pre).map Prod.fst := by
  match fields with
  | [] => intro pre; rfl
  | (k, v) :: rest =>
    intro pre
    simp only [getKeysF, entriesF, List.map_append]
    rw [getKeysF_eq_entries rest pre]
    cases v with
    | obj f2 =>
      rw [getKeysV_eq_entries (.obj f2)]
    | str s => rfl
    | nullV => rfl
    | arr l => rfl
termination_by structural fields
end

/-! Structure of path-level entries. -/

theorem pathEntriesF_cons (k : String) (v : JVal) (rest : Fields) :
    pathEntriesF ((k, v) :: rest) = blockEntries k v ++ pathEntriesF rest := by
  cases v <;> rfl

theorem blockEntries_head {k : String} {v : JVal} {e : List String × String}
    (h : e ∈ blockEntries k v) : ∃ p0, e.1 = k :: p0 := by
  cases v with
  | obj f2 =>
    simp only [blockEntries, List.mem_map] at h
    obtain ⟨e2, _, rfl⟩ := h
    exact ⟨e2.1, rfl⟩
  | str s =>
    simp only [blockEntries, List.mem_singleton] at h
    exact ⟨[], by rw [h]⟩
  | nullV =>
    simp only [blockEntries, List.mem_singleton] at h
    exact ⟨[], by rw [h]⟩
  | arr l =>
    simp only [blockEntries, List.mem_singleton] at h
    exact ⟨[], by rw [h]⟩

theorem pathEntriesF_append (l1 l2 : Fields) :
    pathEntriesF (l1 ++ l2) = pathEntriesF l1 ++ pathEntriesF l2 := by
  induction l1 with
  | nil => rfl
  | cons p l1 ih =>
    obtain ⟨k, v⟩ := p
    rw [List.cons_append, pathEntriesF_cons, pathEntriesF_cons, ih,
      List.append_assoc]

theorem pathEntriesF_head {fields : Fields} {e : List String × String}
    (h : e ∈ pathEntriesF fields) :
    ∃ k0 p0, e.1 = k0 :: p0 ∧ hasField fields k0 = true := by
  induction fields with
  | nil => simp [pathEntriesF] at h
  | cons p rest ih =>
    obtain ⟨k, v⟩ := p
    rw [pathEntriesF_cons, List.mem_append] at h
    rcases h with h | h
    · obtain ⟨p0, hp⟩ := blockEntries_head h
      exact ⟨k, p0, hp, by simp [hasField]⟩
    · obtain ⟨k0, p0, hp, hf⟩ := ih h
      exact ⟨k0, p0, hp, by simp [hasField, hf]⟩

theorem blockEntries_sub {k : String} {v : JVal} :
    ∀ {fields : Fields}, (k, v) ∈ fields →
      ∀ {e : List String × String}, e ∈ blockEntries k v →
        e ∈ pathEntriesF fields := by
  intro fields
  induction fields with
  | nil => intro h; simp at h
  | cons p rest ih =>
    intro hmem e he
    obtain ⟨a, b⟩ := p
    rw [pathEntriesF_cons, List.mem_append]
    rcases List.mem_cons.mp hmem with heq | hmem2
    · obtain ⟨rfl, rfl⟩ := Prod.mk.injEq .. ▸ heq
      exact Or.inl he
    · exact Or.inr (ih hmem2 he)

theorem wfFields_cons {a : String} {b : JVal} {rest : Fields} :
    wfFields ((a, b) :: rest) = true ↔
      goodSeg a = true ∧ hasField rest a = false ∧ wfVal b = true
        ∧ wfFields rest = true := by
  simp [wfFields, Bool.and_assoc, Bool.not_eq_true', and_assoc]

theorem pathEntries_head_unique {k : String} {w : JVal} :
    ∀ {fields : Fields}, wfFields fields = true →
      getField fields k = some w →
      ∀ {e : List String × String}, e ∈ pathEntriesF fields →
        ∀ p0, e.1 = k :: p0 → e ∈ blockEntries k w := by
  intro fields
  induction fields with
  | nil => intro _ hget; simp [getField] at hget
  | cons p rest ih =>
    intro hwf hget e he p0 hp
    obtain ⟨a, b⟩ := p
    obtain ⟨hg, hnf, hwb, hwr⟩ := wfFields_cons.mp hwf
    rw [pathEntriesF_cons, List.mem_append] at he
    by_cases ha : a = k
    · subst ha
      simp only [getField, beq_self_eq_true, if_true] at hget
      injection hget with hget
      subst hget
      rcases he with he | he
      · exact he
      · obtain ⟨k0, p1, hp1, hf1⟩ := pathEntriesF_head he
        rw [hp] at hp1
        injection hp1 with h1 _
        subst h1
        rw [hf1] at hnf
        exact absurd hnf (by simp)
    · simp only [getField] at hget
      rw [if_neg (by simpa using ha)] at hget
      rcases he with he | he
      · obtain ⟨p1, hp1⟩ := blockEntries_head he
        rw [hp] at hp1
        injection hp1 with h1 _
        exact absurd h1.symm ha
      · exact ih hwr hget he p0 hp

theorem hasField_setField_ne {k k' : String} (v : JVal)
    (h : k' ≠ k) : ∀ fields : Fields,
      hasField (setField fields k v) k' = hasField fields k' := by
  intro fields
  induction fields with
  | nil => simp [setField, hasField, Ne.symm h]
  | cons p rest ih =>
    by_cases hk : p.1 = k
    · simp [setField, hasField, hk, Ne.symm h]
    · simp [setField, hasField, hk, ih]

theorem wfFields_setField {k : String} {v : JVal}
    (hk : goodSeg k = true) (hv : wfVal v = true) :
    ∀ {fields : Fields}, wfFields fields = true →
      wfFields (setField fields k v) = true := by
  intro fields
  induction fields with
  | nil =>
    intro _
    simp only [setField]
    exact wfFields_cons.mpr ⟨hk, rfl, hv, rfl⟩
  | cons p rest ih =>
    intro hwf
    obtain ⟨a, b⟩ := p
    obtain ⟨hg, hnf, hwb, hwr⟩ := wfFields_cons.mp hwf
    by_cases ha : a = k
    · subst ha
      simp only [setField, beq_self_eq_true, if_true]
      exact wfFields_cons.mpr ⟨hg, hnf, hv, hwr⟩
    · simp only [setField]
      rw [if_neg (by simpa using ha)]
      refine wfFields_cons.mpr ⟨hg, ?_, hwb, ih hwr⟩
      rw [hasField_setField_ne _ ha rest]
      exact hnf

theorem pathEntriesF_setField {k : String} {w v : JVal} :
    ∀ {fields : Fields}, wfFields fields = true →
      getField fields k = some w →
      ∀ e : List String × String,
        (e ∈ pathEntriesF (setField fields k v) ↔
          e ∈ blockEntries k v
            ∨ (e ∈ pathEntriesF fields ∧ ∀ p0, e.1 ≠ k :: p0)) := by
  intro fields
  induction fields with
  | nil => intro _ hget; simp [getField] at hget
  | cons p rest ih =>
    intro hwf hget e
    obtain ⟨a, b⟩ := p
    obtain ⟨hg, hnf, hwb, hwr⟩ := wfFields_cons.mp hwf
    by_cases ha : a = k
    · subst ha
      simp only [getField, beq_self_eq_true, if_true] at hget
      injection hget with hget
      subst hget
      simp only [setField, beq_self_eq_true, if_true]
      rw [pathEntriesF_cons, pathEntriesF_cons, List.mem_append,
        List.mem_append]
      constructor
      · rintro (h | h)
        · exact Or.inl h
        · refine Or.inr ⟨Or.inr h, fun p0 hp => ?_⟩
          obtain ⟨k0, p1, hp1, hf1⟩ := pathEntriesF_head h
          rw [hp] at hp1
          injection hp1 with h1 _
          subst h1
          rw [hf1] at hnf
          exact absurd hnf (by simp)
      · rintro (h | ⟨h | h, hhead⟩)
        · exact Or.inl h
        · obtain ⟨p0, hp0⟩ := blockEntries_head h
          exact absurd hp0 (hhead p0)
        · exact Or.inr h
    · simp only [getField] at hget
      rw [if_neg (by simpa using ha)] at hget
      simp only [setField]
      rw [if_neg (by simpa using ha)]
      rw [pathEntriesF_cons, pathEntriesF_cons, List.mem_append,
        List.mem_append]
      rw [ih hwr hget e]
      constructor
      · rintro (h | h | ⟨hin, hhead⟩)
        · refine Or.inr ⟨Or.inl h, fun p0 hp => ?_⟩
          obtain ⟨p1, hp1⟩ := blockEntries_head h
          rw [hp] at hp1
          injection hp1 with h1 _
          exact ha h1.symm
        · exact Or.inl h
        · exact Or.inr ⟨Or.inr hin, hhead⟩
      · rintro (h | ⟨h | h, hhead⟩)
        · exact Or.inr (Or.inl h)
        · exact Or.inl h
        · exact Or.inr (Or.inr ⟨h, hhead⟩)

theorem setField_absent {k : String} {v : JVal} :
    ∀ {fields : Fields}, hasField fields k = false →
      setField fields k v = fields ++ [(k, v)] := by
  intro fields
  induction fields with
  | nil => intro _; rfl
  | cons p rest ih =>
    intro h
    simp only [hasField, Bool.or_eq_false_iff] at h
    simp only [setField]
    rw [if_neg (by simp [h.1]), ih h.2]
    rfl

/-! Incomparability of paths. -/

theorem isInit_cons_same {k : String} {as bs : List String} :
    isInit (k :: as) (k :: bs) = isInit as bs := by
  simp [isInit]

theorem pathIncomp_cons {k : String} {as bs : List String} :
    pathIncomp (k :: as) (k :: bs) = pathIncomp as bs := by
  simp [pathIncomp, isInit_cons_same]

theorem pathIncomp_of_head_ne {k k0 : String} (h : k ≠ k0)
    (as bs : List String) : pathIncomp (k :: as) (k0 :: bs) = true := by
  simp [pathIncomp, isInit, h, Ne.symm h]

theorem pathIncomp_comm (p q : List String) :
    pathIncomp p q = pathIncomp q p := by
  simp [pathIncomp, Bool.and_comm]

/-! Paths of a well-formed tree: nonempty dot-free segments, pairwise
incomparable. -/

mutual
theorem pathEntriesV_good (v : JVal) :
    wfVal v = true → ∀ e ∈ pathEntriesV v,
      e.1 ≠ [] ∧ ∀ seg ∈ e.1, goodSeg seg = true := by
  match v with
  | .obj fields => exact pathEntriesF_good fields
  | .str s => intro _ e he; simp [pathEntriesV] at he
  | .nullV => intro _ e he; simp [pathEntriesV] at he
  | .arr l => intro _ e he; simp [pathEntriesV] at he
termination_by structural v

theorem pathEntriesF_good (fields : Fields) :
    wfFields fields = true → ∀ e ∈ pathEntriesF fields,
      e.1 ≠ [] ∧ ∀ seg ∈ e.1, goodSeg seg = true := by
  match fields with
  | [] => intro _ e he; simp [pathEntriesF] at he
  | (k, v) :: rest =>
    intro hwf e he
    obtain ⟨hg, hnf, hwb, hwr⟩ := wfFields_cons.mp hwf
    rw [pathEntriesF_cons, List.mem_append] at he
    rcases he with he | he
    · cases v with
      | obj f2 =>
        simp only [blockEntries, List.mem_map] at he
        obtain ⟨e2, he2, rfl⟩ := he
        obtain ⟨_, hsegs⟩ := pathEntriesV_good (.obj f2) hwb e2 he2
        refine ⟨by simp, fun seg hs => ?_⟩
        rcases List.mem_cons.mp hs with rfl | hs
        · exact hg
        · exact hsegs seg hs
      | str s =>
        simp only [blockEntries, List.mem_singleton] at he
        subst he
        exact ⟨by simp, fun seg hs => by
          rcases List.mem_singleton.mp hs with rfl; exact hg⟩
      | nullV =>
        simp only [blockEntries, List.mem_singleton] at he
        subst he
        exact ⟨by simp, fun seg hs => by
          rcases List.mem_singleton.mp hs with rfl; exact hg⟩
      | arr l =>
        simp only [blockEntries, List.mem_singleton] at he
        subst he
        exact ⟨by simp, fun seg hs => by
          rcases List.mem_singleton.mp hs with rfl; exact hg⟩
    · exact pathEntriesF_good rest hwr e he
termination_by structural fields
end

mutual
theorem pathEntriesV_pairwise (v : JVal) :
    wfVal v = true → (pathEntriesV v).Pairwise
      (fun e1 e2 => pathIncomp e1.1 e2.1 = true) := by
  match v with
  | .obj fields => exact pathEntriesF_pairwise fields
  | .str s => intro _; simp [pathEntriesV]
  | .nullV => intro _; simp [pathEntriesV]
  | .arr l => intro _; simp [pathEntriesV]
termination_by structural v

theorem pathEntriesF_pairwise (fields : Fields) :
    wfFields fields = true → (pathEntriesF fields).Pairwise
      (fun e1 e2 => pathIncomp e1.1 e2.1 = true) := by
  match fields with
  | [] => intro _; simp [pathEntriesF]
  | (k, v) :: rest =>
    intro hwf
    obtain ⟨hg, hnf, hwb, hwr⟩ := wfFields_cons.mp hwf
    rw [pathEntriesF_cons]
    rw [List.pairwise_append]
    refine ⟨?_, pathEntriesF_pairwise rest hwr, ?_⟩
    · cases v with
      | obj f2 =>
        simp only [blockEntries]
        refine List.Pairwise.map _ ?_ (pathEntriesV_pairwise (.obj f2) hwb)
        intro a b hab
        simpa [pathIncomp_cons] using hab
      | str s => simp [blockEntries]
      | nullV => simp [blockEntries]
      | arr l => simp [blockEntries]
    · intro a ha b hb
      obtain ⟨pa, hpa⟩ := blockEntries_head ha
      obtain ⟨k0, pb, hpb, hf⟩ := pathEntriesF_head hb
      rw [hpa, hpb]
      refine pathIncomp_of_head_ne (fun hk => ?_) _ _
      subst hk
      rw [hf] at hnf
      exact absurd hnf (by simp)
termination_by structural fields
end

theorem wfVal_of_getField {k : String} {w : JVal} :
    ∀ {fields : Fields}, wfFields fields = true →
      getField fields k = some w → wfVal w = true := by
  intro fields
  induction fields with
  | nil => intro _ hget; simp [getField] at hget
  | cons p rest ih =>
    intro hwf hget
    obtain ⟨a, b⟩ := p
    obtain ⟨_, _, hwb, hwr⟩ := wfFields_cons.mp hwf
    by_cases ha : a = k
    · subst ha
      simp only [getField, beq_self_eq_true, if_true] at hget
      injection hget with hget
      subst hget
      exact hwb
    · simp only [getField] at hget
      rw [if_neg (by simpa using ha)] at hget
      exact ih hwr hget

/-- Inserting one new leaf with `setNestedKey`: when the path is
incomparable with every existing leaf path, exactly that one entry is
added to the path-level flattening, and well-formedness is preserved. -/
theorem pathEntries_setNestedKey :
    ∀ (p : List String) (fields : Fields) (v : String),
      p ≠ [] → wfFields fields = true →
      (∀ seg ∈ p, goodSeg seg = true) →
      (∀ q ∈ pathEntriesF fields, pathIncomp p q.1 = true) →
      wfFields (setNestedKey fields p v) = true
      ∧ ∀ e : List String × String,
          e ∈ pathEntriesF (setNestedKey fields p v) ↔
            e = (p, v) ∨ e ∈ pathEntriesF fields := by
  intro p
  induction p with
  | nil => intro fields v h; exact absurd rfl h
  | cons k p' ih =>
    intro fields v _ hwf hgood hinc
    have hgk : goodSeg k = true := hgood k (List.mem_cons_self _ _)
    match p' with
    | [] =>
      refine ⟨wfFields_setField hgk (show wfVal (JVal.str v) = true from rfl)
        hwf, fun e => ?_⟩
      show e ∈ pathEntriesF (setField fields k (.str v)) ↔ _
      cases hget : getField fields k with
      | none =>
        rw [setField_absent (getField_none_iff.mp hget), pathEntriesF_append,
          List.mem_append]
        constructor
        · rintro (h | h)
          · exact Or.inr h
          · left
            rw [pathEntriesF_cons] at h
            simpa [blockEntries, pathEntriesF] using h
        · rintro (rfl | h)
          · right
            rw [pathEntriesF_cons]
            simp [blockEntries, pathEntriesF]
          · exact Or.inl h
      | some w =>
        rw [pathEntriesF_setField hwf hget e]
        constructor
        · rintro (h | ⟨h, _⟩)
          · left
            simpa [blockEntries] using h
          · exact Or.inr h
        · rintro (rfl | h)
          · left
            simp [blockEntries]
          · refine Or.inr ⟨h, fun p0 hp => ?_⟩
            have h2 := hinc e h
            rw [hp] at h2
            simp [pathIncomp, isInit] at h2
    | k2 :: rest =>
      have hgood' : ∀ seg ∈ k2 :: rest, goodSeg seg = true :=
        fun seg hs => hgood seg (List.mem_cons_of_mem _ hs)
      cases hget : getField fields k with
      | none =>
        have hrw : setNestedKey fields (k :: k2 :: rest) v
            = setField fields k (.obj (setNestedKey [] (k2 :: rest) v)) := by
          simp only [setNestedKey, hget]
        obtain ⟨hwf', hmem'⟩ := ih [] v (by simp) rfl hgood'
          (by intro q hq; simp [pathEntriesF] at hq)
        constructor
        · rw [hrw]
          exact wfFields_setField hgk
            (show wfVal (JVal.obj (setNestedKey [] (k2 :: rest) v)) = true
              from hwf') hwf
        · intro e
          rw [hrw, setField_absent (getField_none_iff.mp hget),
            pathEntriesF_append, List.mem_append]
          constructor
          · rintro (h | h)
            · exact Or.inr h
            · rw [pathEntriesF_cons] at h
              simp only [blockEntries, pathEntriesF, List.append_nil,
                List.mem_map] at h
              obtain ⟨e2, he2, rfl⟩ := h
              rcases (hmem' e2).mp he2 with rfl | h2
              · exact Or.inl rfl
              · simp [pathEntriesF] at h2
          · rintro (rfl | h)
            · right
              rw [pathEntriesF_cons]
              simp only [blockEntries, pathEntriesF, List.append_nil,
                List.mem_map]
              exact ⟨(k2 :: rest, v), (hmem' _).mpr (Or.inl rfl), rfl⟩
            · exact Or.inl h
      | some w =>
        match w with
        | .obj f2 =>
          have hrw : setNestedKey fields (k :: k2 :: rest) v
              = setField fields k (.obj (setNestedKey f2 (k2 :: rest) v)) := by
            simp only [setNestedKey, hget]
          have hmemf : (k, JVal.obj f2) ∈ fields := getField_mem hget
          have hwf2 : wfFields f2 = true := wfVal_of_getField hwf hget
          have hinc2 : ∀ q ∈ pathEntriesF f2,
              pathIncomp (k2 :: rest) q.1 = true := by
            intro q hq
            have hin : ((k :: q.1, q.2) : List String × String)
                ∈ pathEntriesF fields := by
              refine blockEntries_sub hmemf ?_
              simp only [blockEntries, List.mem_map]
              exact ⟨q, hq, rfl⟩
            have h2 := hinc _ hin
            simpa [pathIncomp_cons] using h2
          obtain ⟨hwf', hmem'⟩ := ih f2 v (by simp) hwf2 hgood' hinc2
          constructor
          · rw [hrw]
            exact wfFields_setField hgk
              (show wfVal (JVal.obj (setNestedKey f2 (k2 :: rest) v)) = true
                from hwf') hwf
          · intro e
            rw [hrw, pathEntriesF_setField hwf hget e]
            constructor
            · rintro (h | ⟨h, _⟩)
              · simp only [blockEntries, List.mem_map] at h
                obtain ⟨e2, he2, rfl⟩ := h
                rcases (hmem' e2).mp he2 with rfl | h2
                · exact Or.inl rfl
                · refine Or.inr (blockEntries_sub hmemf ?_)
                  simp only [blockEntries, List.mem_map]
                  exact ⟨e2, h2, rfl⟩
              · exact Or.inr h
            · rintro (rfl | h)
              · left
                simp only [blockEntries, List.mem_map]
                exact ⟨(k2 :: rest, v), (hmem' _).mpr (Or.inl rfl), rfl⟩
              · by_cases hhead : ∃ p0, e.1 = k :: p0
                · obtain ⟨p0, hp0⟩ := hhead
                  have hblk := pathEntries_head_unique hwf hget h p0 hp0
                  simp only [blockEntries, List.mem_map] at hblk
                  obtain ⟨e2, he2, heq⟩ := hblk
                  left
                  simp only [blockEntries, List.mem_map]
                  exact ⟨e2, (hmem' e2).mpr (Or.inr he2), heq⟩
                · push_neg at hhead
                  exact Or.inr ⟨h, fun p0 => hhead p0⟩
        | .str s =>
          exfalso
          have hin : (([k], s) : List String × String)
              ∈ pathEntriesF fields :=
            blockEntries_sub (getField_mem hget) (by simp [blockEntries])
          have h2 := hinc _ hin
          simp [pathIncomp, isInit] at h2
        | .nullV =>
          exfalso
          have hin : (([k], "") : List String × String)
              ∈ pathEntriesF fields :=
            blockEntries_sub (getField_mem hget) (by simp [blockEntries])
          have h2 := hinc _ hin
          simp [pathIncomp, isInit] at h2
        | .arr l =>
          exfalso
          have hin : (([k], "") : List String × String)
              ∈ pathEntriesF fields :=
            blockEntries_sub (getField_mem hget) (by simp [blockEntries])
          have h2 := hinc _ hin
          simp [pathIncomp, isInit] at h2

theorem foldl_ext_mem {α β : Type _} (f g : α → β → α) :
    ∀ (l : List β) (init : α), (∀ a, ∀ b ∈ l, f a b = g a b) →
      l.foldl f init = l.foldl g init := by
  intro l
  induction l with
  | nil => intro _ _; rfl
  | cons b l ih =>
    intro init h
    simp only [List.foldl_cons]
    rw [h init b (List.mem_cons_self _ _)]
    exact ih _ (fun a b' hb => h a b' (List.mem_cons_of_mem _ hb))

/-- Folding `setNestedKey` over pairwise-incomparable good paths: the
path-level flattening of the result is exactly the inserted entries plus
the accumulator's. -/
theorem pathEntries_unflattenP :
    ∀ (es : List (List String × String)) (acc : Fields),
      wfFields acc = true →
      (∀ e ∈ es, e.1 ≠ [] ∧ ∀ seg ∈ e.1, goodSeg seg = true) →
      es.Pairwise (fun a b => pathIncomp a.1 b.1 = true) →
      (∀ e ∈ es, ∀ q ∈ pathEntriesF acc, pathIncomp e.1 q.1 = true) →
      wfFields (unflattenP es acc) = true
      ∧ ∀ x, x ∈ pathEntriesF (unflattenP es acc)
          ↔ x ∈ es ∨ x ∈ pathEntriesF acc := by
  intro es
  induction es with
  | nil =>
    intro acc hwf _ _ _
    exact ⟨hwf, fun x => by simp [unflattenP]⟩
  | cons e1 es ih =>
    intro acc hwf hgood hpw hinc
    have hg1 := hgood e1 (List.mem_cons_self _ _)
    obtain ⟨hwf1, hmem1⟩ := pathEntries_setNestedKey e1.1 acc e1.2 hg1.1 hwf
      hg1.2 (fun q hq => hinc e1 (List.mem_cons_self _ _) q hq)
    have hstep : unflattenP (e1 :: es) acc
        = unflattenP es (setNestedKey acc e1.1 e1.2) := rfl
    obtain ⟨hpw1, hpw2⟩ := List.pairwise_cons.mp hpw
    have hinc2 : ∀ e ∈ es, ∀ q ∈ pathEntriesF (setNestedKey acc e1.1 e1.2),
        pathIncomp e.1 q.1 = true := by
      intro e he q hq
      rcases (hmem1 q).mp hq with rfl | hq2
      · rw [pathIncomp_comm]
        exact hpw1 e he
      · exact hinc e (List.mem_cons_of_mem _ he) q hq2
    obtain ⟨hwf', hmem'⟩ := ih _ hwf1
      (fun e he => hgood e (List.mem_cons_of_mem _ he)) hpw2 hinc2
    rw [hstep]
    refine ⟨hwf', fun x => ?_⟩
    constructor
    · intro hx
      rcases (hmem' x).mp hx with hx | hx
      · exact Or.inl (List.mem_cons_of_mem _ hx)
      · rcases (hmem1 x).mp hx with rfl | hx2
        · exact Or.inl (List.mem_cons_self _ _)
        · exact Or.inr hx2
    · rintro (hx | hx)
      · rcases List.mem_cons.mp hx with rfl | hx2
        · exact (hmem' x).mpr (Or.inr ((hmem1 x).mpr (Or.inl rfl)))
        · exact (hmem' x).mpr (Or.inl hx2)
      · exact (hmem' x).mpr (Or.inr ((hmem1 x).mpr (Or.inr hx)))

/-- C4 counterexample: the tree `{"a": "x", "a.b": "y"}` — its nodes are
plain objects, its leaves are all strings — flattens to the entries
`("a","x"), ("a.b","y")`, but re-nesting them with `setNestedKey` (each
key split at dots, as `addMissingKeys` does) collapses both onto the
path `a.b`: the result is `{"a": {"b": "y"}}`, whose flattened key set
`{"a.b"}` has lost the key `"a"`, so the round-trip is not the
identity on flattened keys and values. -/
theorem c4_counterexample :
    entriesF [("a", .str "x"), ("a.b", .str "y")] ""
      = [("a", "x"), ("a.b", "y")]
    ∧ unflatten (entriesF [("a", .str "x"), ("a.b", .str "y")] "")
      = [("a", .obj [("b", .str "y")])]
    ∧ getKeysF (unflatten (entriesF [("a", .str "x"), ("a.b", .str "y")] "")) ""
      = ["a.b"]
    ∧ "a" ∈ getKeysF [("a", .str "x"), ("a.b", .str "y")] ""
    ∧ "a" ∉ getKeysF
        (unflatten (entriesF [("a", .str "x"), ("a.b", .str "y")] "")) "" := by
  refine ⟨rfl, rfl, rfl, ?_, ?_⟩
  · decide
  · decide

/-- C4 amended: for a nested dictionary whose nodes are plain objects
with the field names `JSON.parse` can produce (pairwise distinct), each
name nonempty and containing no dot, and whose leaves are all strings,
re-nesting the flattened entries (each key split at dots, its leaf value
stored with `setNestedKey`, starting from the empty tree) yields a tree
whose flattened key set and corresponding leaf values are identical to
the original's — sibling order may differ, membership is preserved. -/
theorem c4_roundtrip (t : Fields) (hwf : wfFields t = true)
    (_hstr : strTreeF t = true) :
    (∀ k, k ∈ getKeysF (unflatten (entriesF t "")) ""
        ↔ k ∈ getKeysF t "")
    ∧ (∀ e, e ∈ entriesF (unflatten (entriesF t "")) ""
        ↔ e ∈ entriesF t "") := by
  have hred : unflatten (entriesF t "") = unflattenP (pathEntriesF t) [] := by
    rw [unflatten, entriesF_eq_path t "", List.foldl_map]
    exact foldl_ext_mem _ _ _ _ (fun a e he => by
      show setNestedKey a (jsSplitDot (foldJoin "" e.1)) e.2
        = setNestedKey a e.1 e.2
      rw [jsSplitDot_foldJoin (pathEntriesF_good t hwf e he).1
        (pathEntriesF_good t hwf e he).2])
  obtain ⟨hwf', hmem'⟩ := pathEntries_unflattenP (pathEntriesF t) [] rfl
    (fun e he => pathEntriesF_good t hwf e he)
    (pathEntriesF_pairwise t hwf)
    (fun e _ q hq => by simp [pathEntriesF] at hq)
  have hiff : ∀ x, x ∈ pathEntriesF (unflatten (entriesF t ""))
      ↔ x ∈ pathEntriesF t := by
    intro x
    rw [hred]
    rw [hmem' x]
    simp [pathEntriesF]
  have hent : ∀ e, e ∈ entriesF (unflatten (entriesF t "")) ""
      ↔ e ∈ entriesF t "" := by
    intro e
    conv_lhs => rw [entriesF_eq_path (unflatten (entriesF t "")) ""]
    conv_rhs => rw [entriesF_eq_path t ""]
    simp only [List.mem_map]
    constructor
    · rintro ⟨pe, hpe, rfl⟩
      exact ⟨pe, (hiff pe).mp hpe, rfl⟩
    · rintro ⟨pe, hpe, rfl⟩
      exact ⟨pe, (hiff pe).mpr hpe, rfl⟩
  refine ⟨fun k => ?_, hent⟩
  rw [getKeysF_eq_entries, getKeysF_eq_entries]
  simp only [List.mem_map]
  constructor
  · rintro ⟨e, he, rfl⟩
    exact ⟨e, (hent e).mp he, rfl⟩
  · rintro ⟨e, he, rfl⟩
    exact ⟨e, (hent e).mpr he, rfl⟩

/-- Witness for `c4_roundtrip` at a concrete two-level tree. -/
theorem c4_roundtrip_witness :
    ("a.b" ∈ getKeysF (unflatten (entriesF
        [("a", .obj [("b", .str "x")]), ("c", .str "y")] "")) ""
      ↔ "a.b" ∈ getKeysF [("a", .obj [("b", .str "x")]), ("c", .str "y")] "")
    ∧ (("c", "y") ∈ entriesF (unflatten (entriesF
        [("a", .obj [("b", .str "x")]), ("c", .str "y")] "")) ""
      ↔ ("c", "y") ∈ entriesF
        [("a", .obj [("b", .str "x")]), ("c", .str "y")] "") :=
  ⟨(c4_roundtrip [("a", .obj [("b", .str "x")]), ("c", .str "y")]
      (by decide) (by decide)).1 "a.b",
   (c4_roundtrip [("a", .obj [("b", .str "x")]), ("c", .str "y")]
      (by decide) (by decide)).2 ("c", "y")⟩

/-! ## Claim C7: the delete-unused operation.

Removal-side analogues of the insertion lemmas: deleting a leaf path of
a well-formed tree with `removeKey` removes exactly that entry from the
path-level flattening (empty-ancestor pruning never changes the
flattening, since empty objects contribute no entries). -/

theorem isInit_refl : ∀ p : List String, isInit p p = true := by
  intro p
  induction p with
  | nil => rfl
  | cons k ps ih => simp [isInit, ih]

theorem pathIncomp_self (p : List String) : pathIncomp p p = false := by
  simp [pathIncomp, isInit_refl]

theorem pairwise_path_unique :
    ∀ {l : List (List String × String)},
      l.Pairwise (fun a b => pathIncomp a.1 b.1 = true) →
      ∀ {e1}, e1 ∈ l → ∀ {e2}, e2 ∈ l → e1.1 = e2.1 → e1 = e2 := by
  intro l
  induction l with
  | nil => intro _ e1 h1; simp at h1
  | cons x l ih =>
    intro hpw e1 h1 e2 h2 heq
    obtain ⟨hx, hpl⟩ := List.pairwise_cons.mp hpw
    rcases List.mem_cons.mp h1 with h1e | h1m <;>
      rcases List.mem_cons.mp h2 with h2e | h2m
    · rw [h1e, h2e]
    · have hinc := hx e2 h2m
      rw [← h1e, heq, pathIncomp_self] at hinc
      simp at hinc
    · have hinc := hx e1 h1m
      rw [← h2e, ← heq, pathIncomp_self] at hinc
      simp at hinc
    · exact ih hpl h1m h2m heq

theorem getField_of_hasField {k : String} :
    ∀ {fields : Fields}, hasField fields k = true →
      ∃ w, getField fields k = some w := by
  intro fields
  induction fields with
  | nil => intro h; simp [hasField] at h
  | cons p rest ih =>
    intro h
    by_cases hk : p.1 = k
    · exact ⟨p.2, by simp [getField, hk]⟩
    · have hr : hasField rest k = true := by
        simpa [hasField, hk] using h
      obtain ⟨w, hw⟩ := ih hr
      exact ⟨w, by simp [getField, hk, hw]⟩

theorem hasField_eraseField {a k : String} :
    ∀ {fields : Fields}, hasField (eraseField fields k) a = true →
      hasField fields a = true := by
  intro fields
  induction fields with
  | nil => intro h; simp [eraseField, hasField] at h
  | cons p rest ih =>
    intro h
    by_cases hk : p.1 = k
    · rw [eraseField, if_pos (by simpa using hk)] at h
      simp [hasField, h]
    · rw [eraseField, if_neg (by simpa using hk)] at h
      simp only [hasField, Bool.or_eq_true] at h ⊢
      rcases h with h2 | h2
      · exact Or.inl h2
      · exact Or.inr (ih h2)

theorem wfFields_eraseField {k : String} :
    ∀ {fields : Fields}, wfFields fields = true →
      wfFields (eraseField fields k) = true := by
  intro fields
  induction fields with
  | nil => intro _; rfl
  | cons p rest ih =>
    intro hwf
    obtain ⟨a, b⟩ := p
    obtain ⟨hg, hnf, hwb, hwr⟩ := wfFields_cons.mp hwf
    by_cases ha : a = k
    · rw [eraseField, if_pos (by simpa using ha)]
      exact hwr
    · rw [eraseField, if_neg (by simpa using ha)]
      refine wfFields_cons.mpr ⟨hg, ?_, hwb, ih hwr⟩
      cases hh : hasField (eraseField rest k) a with
      | false => rfl
      | true => rw [hasField_eraseField hh] at hnf; exact hnf

theorem pathEntriesF_eraseField {k : String} :
    ∀ {fields : Fields}, wfFields fields = true →
      ∀ e : List String × String,
        (e ∈ pathEntriesF (eraseField fields k) ↔
          e ∈ pathEntriesF fields ∧ ∀ p0, e.1 ≠ k :: p0) := by
  intro fields
  induction fields with
  | nil => intro _ e; simp [eraseField, pathEntriesF]
  | cons p rest ih =>
    intro hwf e
    obtain ⟨a, b⟩ := p
    obtain ⟨hg, hnf, hwb, hwr⟩ := wfFields_cons.mp hwf
    by_cases ha : a = k
    · subst ha
      rw [eraseField, if_pos (by simp)]
      rw [pathEntriesF_cons, List.mem_append]
      constructor
      · intro h
        refine ⟨Or.inr h, fun p0 hp => ?_⟩
        obtain ⟨k0, p1, hp1, hf1⟩ := pathEntriesF_head h
        rw [hp] at hp1
        injection hp1 with h1 _
        subst h1
        rw [hf1] at hnf
        exact absurd hnf (by simp)
      · rintro ⟨h | h, hhead⟩
        · obtain ⟨p0, hp0⟩ := blockEntries_head h
          exact absurd hp0 (hhead p0)
        · exact h
    · rw [eraseField, if_neg (by simpa using ha)]
      rw [pathEntriesF_cons, pathEntriesF_cons, List.mem_append,
        List.mem_append, ih hwr e]
      constructor
      · rintro (h | ⟨h2, hhead⟩)
        · refine ⟨Or.inl h, fun p0 hp => ?_⟩
          obtain ⟨p1, hp1⟩ := blockEntries_head h
          rw [hp] at hp1
          injection hp1 with h1 _
          exact ha h1.symm
        · exact ⟨Or.inr h2, hhead⟩
      · rintro ⟨h | h, hhead⟩
        · exact Or.inl h
        · exact Or.inr ⟨h, hhead⟩

/-- Removing one leaf path of a well-formed tree with `removeKey`: the
removal succeeds, well-formedness is preserved, and exactly that entry
disappears from the path-level flattening (the cascading prune deletes
only entry-free skeletons, which contribute no entries). -/
theorem pathEntries_removeKey :
    ∀ (p : List String) (fields : Fields) (v : String),
      wfFields fields = true →
      ((p, v) : List String × String) ∈ pathEntriesF fields →
      ∃ fields2, removeKey (.obj fields) p = (.obj fields2, true)
        ∧ wfFields fields2 = true
        ∧ ∀ e : List String × String,
            e ∈ pathEntriesF fields2 ↔ e ∈ pathEntriesF fields ∧ e.1 ≠ p := by
  intro p
  induction p with
  | nil =>
    intro fields v _ hmem
    obtain ⟨k0, p0, hp, _⟩ := pathEntriesF_head hmem
    exact absurd hp (by simp)
  | cons k p' ih =>
    intro fields v hwf hmem
    have hhf : hasField fields k = true := by
      obtain ⟨k0, p0, hp, hf⟩ := pathEntriesF_head hmem
      injection hp with h1 _
      subst h1
      exact hf
    obtain ⟨w, hget⟩ := getField_of_hasField hhf
    have hblk : ((k :: p', v) : List String × String) ∈ blockEntries k w :=
      pathEntries_head_unique hwf hget hmem p' rfl
    match p' with
    | [] =>
      have hw : ∀ e' : List String × String,
          e' ∈ blockEntries k w → e'.1 = [k] := by
        match w with
        | .obj f2 =>
          intro e' _
          exfalso
          simp only [blockEntries, List.mem_map] at hblk
          obtain ⟨e2, he2, heq2⟩ := hblk
          have he2' : e2 ∈ pathEntriesF f2 := by simpa [pathEntriesV] using he2
          obtain ⟨k0, p0, hp0, _⟩ := pathEntriesF_head he2'
          have h1 : k :: e2.1 = [k] := congrArg Prod.fst heq2
          injection h1 with _ h2
          rw [hp0] at h2
          exact List.noConfusion h2
        | .str s =>
          intro e' he'
          simp only [blockEntries, List.mem_singleton] at he'
          rw [he']
        | .nullV =>
          intro e' he'
          simp only [blockEntries, List.mem_singleton] at he'
          rw [he']
        | .arr l =>
          intro e' he'
          simp only [blockEntries, List.mem_singleton] at he'
          rw [he']
      refine ⟨eraseField fields k, by simp [removeKey, hhf],
        wfFields_eraseField hwf, fun e => ?_⟩
      rw [pathEntriesF_eraseField hwf e]
      constructor
      · rintro ⟨h, hhead⟩
        exact ⟨h, hhead []⟩
      · rintro ⟨h, hne⟩
        refine ⟨h, fun p0 hp => ?_⟩
        have hb := pathEntries_head_unique hwf hget h p0 hp
        exact hne (hw e hb)
    | k2 :: rest =>
      have hobj : ∃ f2, w = .obj f2
          ∧ ((k2 :: rest, v) : List String × String) ∈ pathEntriesF f2 := by
        match w with
        | .obj f2 =>
          simp only [blockEntries, List.mem_map] at hblk
          obtain ⟨e2, he2, heq2⟩ := hblk
          obtain ⟨e21, e22⟩ := e2
          have h1 : k :: e21 = k :: k2 :: rest := congrArg Prod.fst heq2
          have h2 : e22 = v := congrArg Prod.snd heq2
          injection h1 with _ h1
          subst h1
          subst h2
          exact ⟨f2, rfl, by simpa [pathEntriesV] using he2⟩
        | .str s =>
          exfalso
          simp only [blockEntries, List.mem_singleton] at hblk
          have h1 : k :: k2 :: rest = [k] := congrArg Prod.fst hblk
          injection h1 with _ h1
          exact List.noConfusion h1
        | .nullV =>
          exfalso
          simp only [blockEntries, List.mem_singleton] at hblk
          have h1 : k :: k2 :: rest = [k] := congrArg Prod.fst hblk
          injection h1 with _ h1
          exact List.noConfusion h1
        | .arr l =>
          exfalso
          simp only [blockEntries, List.mem_singleton] at hblk
          have h1 : k :: k2 :: rest = [k] := congrArg Prod.fst hblk
          injection h1 with _ h1
          exact List.noConfusion h1
      obtain ⟨f2, rfl, hmem2⟩ := hobj
      have hwf2 : wfFields f2 = true := wfVal_of_getField hwf hget
      obtain ⟨fields2', heq', hwf2', hmem2'⟩ := ih f2 v hwf2 hmem2
      cases hfe : fields2' with
      | nil =>
        subst hfe
        refine ⟨eraseField fields k, ?_, wfFields_eraseField hwf, fun e => ?_⟩
        · simp only [removeKey, hget]
          rw [heq']
          rfl
        · rw [pathEntriesF_eraseField hwf e]
          constructor
          · rintro ⟨h, hhead⟩
            exact ⟨h, hhead (k2 :: rest)⟩
          · rintro ⟨h, hne⟩
            refine ⟨h, fun p0 hp => ?_⟩
            have hb := pathEntries_head_unique hwf hget h p0 hp
            simp only [blockEntries, List.mem_map] at hb
            obtain ⟨e2, he2, heq2⟩ := hb
            have he2' : e2 ∈ pathEntriesF f2 := by simpa [pathEntriesV] using he2
            have hnot : ¬ (e2 ∈ pathEntriesF f2 ∧ e2.1 ≠ k2 :: rest) := by
              rw [← hmem2' e2]
              simp [pathEntriesF]
            have he2p : e2.1 = k2 :: rest := by
              by_contra hc
              exact hnot ⟨he2', hc⟩
            have heu := pairwise_path_unique (pathEntriesF_pairwise f2 hwf2)
              he2' hmem2 (by rw [he2p])
            rw [heu] at heq2
            exact hne (by rw [← heq2])
      | cons q qs =>
        subst hfe
        have hgk : goodSeg k = true :=
          (pathEntriesF_good fields hwf _ hmem).2 k (List.mem_cons_self _ _)
        refine ⟨setField fields k (.obj (q :: qs)), ?_,
          wfFields_setField hgk
            (show wfVal (JVal.obj (q :: qs)) = true from hwf2') hwf,
          fun e => ?_⟩
        · simp only [removeKey, hget]
          rw [heq']
          rfl
        · rw [pathEntriesF_setField hwf hget e]
          constructor
          · rintro (h | ⟨h, hhead⟩)
            · simp only [blockEntries, List.mem_map] at h
              obtain ⟨e2, he2, heq2⟩ := h
              have he2' := (hmem2' e2).mp (by simpa [pathEntriesV] using he2)
              refine ⟨blockEntries_sub (getField_mem hget) ?_, ?_⟩
              · simp only [blockEntries, List.mem_map]
                exact ⟨e2, by simpa [pathEntriesV] using he2'.1, heq2⟩
              · intro hp
                rw [← heq2] at hp
                injection hp with _ hp
                exact he2'.2 hp
            · exact ⟨h, fun hp => hhead (k2 :: rest) hp⟩
          · rintro ⟨h, hne⟩
            by_cases hhead : ∃ p0, e.1 = k :: p0
            · obtain ⟨p0, hp0⟩ := hhead
              have hb := pathEntries_head_unique hwf hget h p0 hp0
              simp only [blockEntries, List.mem_map] at hb
              obtain ⟨e2, he2, heq2⟩ := hb
              have he2' : e2 ∈ pathEntriesF f2 := by
                simpa [pathEntriesV] using he2
              have hne2 : e2.1 ≠ k2 :: rest := by
                intro hc
                have heu := pairwise_path_unique (pathEntriesF_pairwise f2 hwf2)
                  he2' hmem2 (by rw [hc])
                rw [heu] at heq2
                exact hne (by rw [← heq2])
              left
              simp only [blockEntries, List.mem_map]
              refine ⟨e2, ?_, heq2⟩
              have := (hmem2' e2).mpr ⟨he2', hne2⟩
              simpa [pathEntriesV] using this
            · push_neg at hhead
              exact Or.inr ⟨h, fun p0 => hhead p0⟩

/-- Folding `removeKey` over pairwise-distinct leaf paths of a
well-formed tree, as `deleteKeysFromLocale` does: exactly those entries
are removed. -/
theorem pathEntries_removeFold :
    ∀ (ks : List (List String)) (fields : Fields),
      wfFields fields = true →
      (∀ p ∈ ks, ∃ v, ((p, v) : List String × String) ∈ pathEntriesF fields) →
      ks.Pairwise (· ≠ ·) →
      wfFields (ks.foldl
        (fun d p => objFields (removeKey (.obj d) p).1) fields) = true
      ∧ ∀ e : List String × String,
          e ∈ pathEntriesF (ks.foldl
            (fun d p => objFields (removeKey (.obj d) p).1) fields)
          ↔ e ∈ pathEntriesF fields ∧ e.1 ∉ ks := by
  intro ks
  induction ks with
  | nil =>
    intro fields hwf _ _
    exact ⟨hwf, fun e => by simp⟩
  | cons p1 ks ih =>
    intro fields hwf hleaf hpw
    obtain ⟨v1, hv1⟩ := hleaf p1 (List.mem_cons_self _ _)
    obtain ⟨fields2, heq2, hwf2, hmem2⟩ :=
      pathEntries_removeKey p1 fields v1 hwf hv1
    obtain ⟨hpw1, hpw2⟩ := List.pairwise_cons.mp hpw
    have hstep : (p1 :: ks).foldl
        (fun d p => objFields (removeKey (.obj d) p).1) fields
        = ks.foldl (fun d p => objFields (removeKey (.obj d) p).1) fields2 := by
      simp only [List.foldl_cons, heq2, objFields]
    have hleaf2 : ∀ p ∈ ks, ∃ v,
        ((p, v) : List String × String) ∈ pathEntriesF fields2 := by
      intro p hp
      obtain ⟨v, hv⟩ := hleaf p (List.mem_cons_of_mem _ hp)
      exact ⟨v, (hmem2 _).mpr ⟨hv, fun hc => hpw1 p hp hc.symm⟩⟩
    obtain ⟨hwf', hmem'⟩ := ih fields2 hwf2 hleaf2 hpw2
    rw [hstep]
    refine ⟨hwf', fun e => ?_⟩
    rw [hmem' e]
    constructor
    · rintro ⟨h2, hnotin⟩
      obtain ⟨h3, hne⟩ := (hmem2 e).mp h2
      exact ⟨h3, by simp [hne, hnotin]⟩
    · rintro ⟨h3, hnotin⟩
      simp only [List.mem_cons, not_or] at hnotin
      exact ⟨(hmem2 e).mpr ⟨h3, hnotin.1⟩, hnotin.2⟩

/-! Distinctness of the report's keys: `dedupKeys` produces no
duplicates, and the sort is a permutation, so the keys of any filtered
selection of the report are pairwise distinct. -/

theorem nodup_dedup_fold :
    ∀ (l acc : List String), acc.Nodup → (l.foldl addUnique acc).Nodup := by
  intro l
  induction l with
  | nil => intro acc h; exact h
  | cons x l ih =>
    intro acc h
    simp only [List.foldl_cons]
    refine ih _ ?_
    by_cases hx : x ∈ acc
    · simpa [addUnique, hx] using h
    · simp only [addUnique, if_neg hx]
      exact List.Nodup.append h (List.nodup_singleton x) (by simpa using hx)

theorem nodup_dedupKeys (l : List String) : (dedupKeys l).Nodup :=
  nodup_dedup_fold l [] List.nodup_nil

theorem insertStatus_perm (s : KeyStatus) :
    ∀ l : List KeyStatus, (insertStatus s l).Perm (s :: l) := by
  intro l
  induction l with
  | nil => exact List.Perm.refl _
  | cons t ts ih =>
    simp only [insertStatus]
    by_cases hle : localeLe s.key t.key = true
    · rw [if_pos hle]
    · rw [if_neg hle]
      exact (ih.cons t).trans (List.Perm.swap s t ts)

theorem sortKeyStatuses_perm (l : List KeyStatus) :
    (sortKeyStatuses l).Perm l := by
  induction l with
  | nil => exact List.Perm.refl _
  | cons x l ih =>
    exact (insertStatus_perm x (sortKeyStatuses l)).trans (ih.cons x)

theorem nodup_analyze_keys (enData : Fields) (esData : Option Fields)
    (usedKeys : List String) :
    ((analyzeKeyStatuses enData esData usedKeys).map KeyStatus.key).Nodup := by
  refine (List.Perm.nodup_iff
    (List.Perm.map KeyStatus.key
      (sortKeyStatuses_perm (mkKeyStatuses enData esData usedKeys)))).mpr ?_
  simp only [mkKeyStatuses, List.map_map]
  have : (KeyStatus.key ∘ fun k =>
      ({ key := k
         inCode := usedKeys.contains k
         inEN := (getKeysF enData "").contains k
         inES := match esData with
                 | some _ => (match esData with
                     | some d => getKeysF d ""
                     | none => []).contains k
                 | none => false } : KeyStatus)) = id := funext fun _ => rfl
  rw [this, List.map_id]
  exact nodup_dedupKeys _

/-- The keys selected by delete-unused on the default locale are exactly
the flattened keys of the loaded default locale that no code uses. -/
theorem mem_unusedKeys (enData : Fields) (esData : Option Fields)
    (usedKeys : List String) (k : String) :
    k ∈ ((analyzeKeyStatuses enData esData usedKeys).filter
        (fun s => (if "en" = "en" then s.inEN else s.inES) && !s.inCode)).map
        KeyStatus.key
    ↔ k ∈ getKeysF enData "" ∧ k ∉ usedKeys := by
  cases esData with
  | none =>
    simp [analyzeKeyStatuses, mkKeyStatuses, mem_sortKeyStatuses,
      mem_dedupKeys, List.mem_filter, List.mem_map]
    constructor
    · rintro ⟨a, ⟨⟨k', hk', rfl⟩, hEN, hC⟩, hkey⟩
      have hk2 : k' = k := hkey
      subst hk2
      exact ⟨of_decide_eq_true hEN, of_decide_eq_false hC⟩
    · rintro ⟨hin, hout⟩
      exact ⟨_, ⟨⟨k, Or.inl hin, rfl⟩, decide_eq_true hin,
        decide_eq_false hout⟩, rfl⟩
  | some d =>
    simp [analyzeKeyStatuses, mkKeyStatuses, mem_sortKeyStatuses,
      mem_dedupKeys, List.mem_filter, List.mem_map]
    constructor
    · rintro ⟨a, ⟨⟨k', hk', rfl⟩, hEN, hC⟩, hkey⟩
      have hk2 : k' = k := hkey
      subst hk2
      exact ⟨of_decide_eq_true hEN, of_decide_eq_false hC⟩
    · rintro ⟨hin, hout⟩
      exact ⟨_, ⟨⟨k, Or.inl (Or.inl hin), rfl⟩, decide_eq_true hin,
        decide_eq_false hout⟩, rfl⟩

/-- Every flattened key of a well-formed tree is the dot-join of a leaf
path, recovered exactly by the dot split. -/
theorem key_path_of_mem {fields : Fields} (hwf : wfFields fields = true)
    {k : String} (hk : k ∈ getKeysF fields "") :
    ∃ pe ∈ pathEntriesF fields, foldJoin "" pe.1 = k ∧ jsSplitDot k = pe.1 := by
  rw [getKeysF_eq_entries, entriesF_eq_path, List.map_map] at hk
  simp only [List.mem_map, Function.comp] at hk
  obtain ⟨pe, hpe, hjoin⟩ := hk
  refine ⟨pe, hpe, hjoin, ?_⟩
  rw [← hjoin]
  exact jsSplitDot_foldJoin (pathEntriesF_good fields hwf pe hpe).1
    (pathEntriesF_good fields hwf pe hpe).2

/-- A string is a flattened key of a tree exactly when it is the
dot-join of one of the tree's leaf paths. -/
theorem mem_getKeysF_iff (fs : Fields) (k : String) :
    k ∈ getKeysF fs "" ↔ ∃ pe ∈ pathEntriesF fs, foldJoin "" pe.1 = k := by
  rw [getKeysF_eq_entries, entriesF_eq_path, List.map_map]
  simp [Function.comp]

/-- The delete-unused fold, at the level of flattened keys: removing a
duplicate-free list of keys — each a flattened key of the well-formed
tree that no code uses — leaves exactly the keys both present and
used. -/
theorem delete_fold_keys (enData : Fields) (hwf : wfFields enData = true)
    (keys : List String) (hnd : keys.Nodup) (usedKeys : List String)
    (hchar : ∀ k, k ∈ keys ↔ k ∈ getKeysF enData "" ∧ k ∉ usedKeys) :
    ∀ k, k ∈ getKeysF ((keys.map jsSplitDot).foldl
        (fun d p => objFields (removeKey (.obj d) p).1) enData) ""
      ↔ k ∈ getKeysF enData "" ∧ k ∈ usedKeys := by
  have hsplit : ∀ k' ∈ keys, ∃ pe ∈ pathEntriesF enData,
      foldJoin "" pe.1 = k' ∧ jsSplitDot k' = pe.1 := fun k' hk' =>
    key_path_of_mem hwf ((hchar k').mp hk').1
  have hleaf : ∀ p ∈ keys.map jsSplitDot, ∃ v,
      ((p, v) : List String × String) ∈ pathEntriesF enData := by
    intro p hp
    simp only [List.mem_map] at hp
    obtain ⟨k', hk', rfl⟩ := hp
    obtain ⟨pe, hpe, _, hsp⟩ := hsplit k' hk'
    exact ⟨pe.2, by rw [hsp]; exact hpe⟩
  have hpw : (keys.map jsSplitDot).Pairwise (· ≠ ·) := by
    refine List.Nodup.map_on ?_ hnd
    intro x hx y hy hxy
    obtain ⟨pex, hpex, hjx, hsx⟩ := hsplit x hx
    obtain ⟨pey, hpey, hjy, hsy⟩ := hsplit y hy
    rw [hsx, hsy] at hxy
    rw [← hjx, ← hjy, hxy]
  obtain ⟨hwfD, hmemD⟩ :=
    pathEntries_removeFold (keys.map jsSplitDot) enData hwf hleaf hpw
  intro k
  constructor
  · intro hk
    obtain ⟨pe, hpe, hj⟩ := (mem_getKeysF_iff _ k).mp hk
    obtain ⟨hpe0, hpnotin⟩ := (hmemD pe).mp hpe
    have hkE : k ∈ getKeysF enData "" :=
      (mem_getKeysF_iff enData k).mpr ⟨pe, hpe0, hj⟩
    refine ⟨hkE, ?_⟩
    by_contra hout
    have hkmem : k ∈ keys := (hchar k).mpr ⟨hkE, hout⟩
    have hsplitk : jsSplitDot k = pe.1 := by
      rw [← hj]
      exact jsSplitDot_foldJoin (pathEntriesF_good enData hwf pe hpe0).1
        (pathEntriesF_good enData hwf pe hpe0).2
    exact hpnotin (by rw [← hsplitk]; exact List.mem_map_of_mem _ hkmem)
  · rintro ⟨hkE, hkU⟩
    obtain ⟨pe, hpe0, hj, hsp⟩ := key_path_of_mem hwf hkE
    refine (mem_getKeysF_iff _ k).mpr ⟨pe, (hmemD pe).mpr ⟨hpe0, ?_⟩, hj⟩
    intro hin
    simp only [List.mem_map] at hin
    obtain ⟨k', hk', hsp'⟩ := hin
    obtain ⟨pe', hpe0', hj', hsp2⟩ := hsplit k' hk'
    have hkk : k' = k := by
      rw [hsp2] at hsp'
      rw [← hj', ← hj, hsp']
    rw [hkk] at hk'
    exact ((hchar k).mp hk').2 hkU

/-- Claim C7 counterexample: a default locale whose file holds the
literal dotted field name `"a.b"` (`{"a.b": "y"}`), with no key used in
code. The delete-unused report lists `"a.b"` as unused and both
confirmations are affirmed, yet the written file still contains the
key: `removeKey` walks the split path `["a", "b"]`, finds no field
`"a"`, and removes nothing — so "exactly the unused keys are removed"
fails. -/
theorem c7_counterexample :
    ((analyzeKeyStatuses [("a.b", .str "y")] none []).filter
        (fun s => (if "en" = "en" then s.inEN else s.inES) && !s.inCode)).map
        KeyStatus.key = ["a.b"]
    ∧ (deleteKeysFromLocale (analyzeKeyStatuses [("a.b", .str "y")] none [])
        "en" true true
        (fun l => if l = "en" then some [("a.b", .str "y")] else none)).1 "en"
      = some [("a.b", .str "y")] :=
  ⟨rfl, rfl⟩

/-- Claim C7 amended: the delete-unused operation mutates only after
two affirmative confirmations — either declined leaves every file
unchanged with no read-modify-write; with both affirmed it writes the
target file at most once, and when the loaded default locale's field
names are nonempty, dot-free and pairwise distinct (so each flattened
unused key addresses its leaf through the dot split), exactly the
unused keys are removed: the written tree's flattened keys are
precisely those both present before and used in code — a literal field
name containing a dot is missed by the split-path walk. On default
locale `{"a":"1","b":"2"}` with used keys `{"a"}` the result is
`{"a":"1"}`. -/
theorem c7_delete_exact_unused :
    (∀ (keyStatuses : List KeyStatus) (locale : String) (c1 c2 : Bool)
        (store : Store), (c1 = false ∨ c2 = false) →
      (deleteKeysFromLocale keyStatuses locale c1 c2 store).1 = store)
    ∧ (∀ (enData : Fields) (esData : Option Fields) (usedKeys : List String)
        (store : Store), wfFields enData = true → store "en" = some enData →
      ∃ enD,
        (deleteKeysFromLocale (analyzeKeyStatuses enData esData usedKeys)
          "en" true true store).1 "en" = some enD
        ∧ (∀ k, k ∈ getKeysF enD "" ↔
            k ∈ getKeysF enData "" ∧ k ∈ usedKeys)
        ∧ ((deleteKeysFromLocale (analyzeKeyStatuses enData esData usedKeys)
            "en" true true store).2 = []
          ∨ (deleteKeysFromLocale (analyzeKeyStatuses enData esData usedKeys)
            "en" true true store).2 = ["en"]))
    ∧ ((deleteKeysFromLocale
          (analyzeKeyStatuses [("a", .str "1"), ("b", .str "2")] none ["a"])
          "en" true true
          (fun l => if l = "en" then some [("a", .str "1"), ("b", .str "2")]
                    else none)).1 "en" = some [("a", .str "1")]) := by
  refine ⟨?_, ?_, rfl⟩
  · intro keyStatuses locale c1 c2 store h
    by_cases he : (keyStatuses.filter fun s =>
        (if locale = "en" then s.inEN else s.inES) && !s.inCode).isEmpty = true
    · simp [deleteKeysFromLocale, he]
    · rcases h with rfl | rfl
      · simp [deleteKeysFromLocale, he]
      · cases c1 <;> simp [deleteKeysFromLocale, he]
  · intro enData esData usedKeys store hwf hstore
    by_cases hemp : ((analyzeKeyStatuses enData esData usedKeys).filter
        (fun s => (if "en" = "en" then s.inEN else s.inES)
          && !s.inCode)).isEmpty = true
    · have hres : deleteKeysFromLocale
          (analyzeKeyStatuses enData esData usedKeys) "en" true true store
          = (store, []) := by
        unfold deleteKeysFromLocale
        rw [if_pos hemp]
      refine ⟨enData, by rw [hres]; exact hstore, fun k => ?_,
        Or.inl (by rw [hres])⟩
      constructor
      · intro hk
        refine ⟨hk, ?_⟩
        by_contra hout
        have hmem := (mem_unusedKeys enData esData usedKeys k).mpr ⟨hk, hout⟩
        rw [List.isEmpty_iff] at hemp
        rw [hemp] at hmem
        simp at hmem
      · rintro ⟨hk, _⟩
        exact hk
    · have hres : deleteKeysFromLocale
          (analyzeKeyStatuses enData esData usedKeys) "en" true true store
          = (storeWrite store "en"
              (((analyzeKeyStatuses enData esData usedKeys).filter
                (fun s => (if "en" = "en" then s.inEN else s.inES)
                  && !s.inCode)).foldl
                (fun d s => objFields (removeKey (.obj d) (jsSplitDot s.key)).1)
                enData),
             ["en"]) := by
        unfold deleteKeysFromLocale
        rw [if_neg hemp]
        rw [if_neg (by simp : ¬((!true) = true))]
        rw [if_neg (by simp : ¬((!true) = true))]
        rw [hstore]
      refine ⟨_, by rw [hres]; rfl, ?_, Or.inr (by rw [hres])⟩
      have hnd : (((analyzeKeyStatuses enData esData usedKeys).filter
          (fun s => (if "en" = "en" then s.inEN else s.inES)
            && !s.inCode)).map KeyStatus.key).Nodup :=
        List.Nodup.sublist (List.Sublist.map _ (List.filter_sublist _))
          (nodup_analyze_keys enData esData usedKeys)
      have hfold : (((analyzeKeyStatuses enData esData usedKeys).filter
            (fun s => (if "en" = "en" then s.inEN else s.inES)
              && !s.inCode)).foldl
            (fun d s => objFields (removeKey (.obj d) (jsSplitDot s.key)).1)
            enData)
          = (((((analyzeKeyStatuses enData esData usedKeys).filter
              (fun s => (if "en" = "en" then s.inEN else s.inES)
                && !s.inCode)).map KeyStatus.key).map jsSplitDot).foldl
              (fun d p => objFields (removeKey (.obj d) p).1) enData) := by
        rw [List.foldl_map, List.foldl_map]
      rw [hfold]
      exact delete_fold_keys enData hwf _ hnd usedKeys
        (mem_unusedKeys enData esData usedKeys)

/-- Witness for `c7_delete_exact_unused` at a concrete run. -/
theorem c7_delete_exact_unused_witness :
    (deleteKeysFromLocale [⟨"b", false, true, false⟩] "en" false true
      (fun _ => some [("b", .str "2")])).1 = (fun _ => some [("b", .str "2")])
    ∧ ∃ enD,
        (deleteKeysFromLocale (analyzeKeyStatuses [("a", .str "1")] none ["a"])
          "en" true true
          (fun l => if l = "en" then some [("a", .str "1")] else none)).1 "en"
          = some enD
        ∧ (∀ k, k ∈ getKeysF enD "" ↔
            k ∈ getKeysF [("a", .str "1")] "" ∧ k ∈ ["a"])
        ∧ ((deleteKeysFromLocale (analyzeKeyStatuses [("a", .str "1")] none ["a"])
            "en" true true
            (fun l => if l = "en" then some [("a", .str "1")] else none)).2 = []
          ∨ (deleteKeysFromLocale (analyzeKeyStatuses [("a", .str "1")] none ["a"])
            "en" true true
            (fun l => if l = "en" then some [("a", .str "1")] else none)).2
              = ["en"]) :=
  ⟨c7_delete_exact_unused.1 [⟨"b", false, true, false⟩] "en" false true
      (fun _ => some [("b", .str "2")]) (Or.inl rfl),
   c7_delete_exact_unused.2.1 [("a", .str "1")] none ["a"]
      (fun l => if l = "en" then some [("a", .str "1")] else none)
      (by decide) rfl⟩
